import Mathlib

/-!
# lua-socket.c : byte accumulator, frame reader and frame writer

A shallow embedding of `src/connection/lua-socket.c`.

Conventions of the embedding.

* A byte of memory is a `Fin 256`.
* C integers are values of type `Int`.  Where the source stores a wider value in an `int`
  (`buffer->cap = size + old_size`, `buffer->size += size`, `int need = ...`,
  `int header = ...`, `int err = ...`) the value is narrowed with `to_int`, the two's
  complement conversion to 32 bits; where it compares or passes an `int` as a `size_t`
  the value is converted with `to_size_t` (64 bits).  The other narrowings of the source
  (`uint16_t len`, the `uint8_t` header bytes) are modelled with `%`.
* `buffer->buffer` is the allocated region itself, a `List Byte` whose length is the
  number of allocated bytes (`[]` stands for `NULL`).  Every access to it goes through
  `load` / `memcpy`, which return `none` when the accessed range leaves the region
  (undefined behaviour in C).  `malloc` / `realloc` are assumed to succeed; the bytes of
  newly allocated memory, which C leaves indeterminate, are `0`.
* A C function that works on the `struct buffer` becomes a function from the old
  `Buffer` to `Option (result × new Buffer)`; `none` means "no defined result".
-/

namespace LuaSocket

abbrev Byte := Fin 256

/-- Conversion of an integer to the 32-bit C `int`: the value modulo `2 ^ 32` in the range
`[-2 ^ 31, 2 ^ 31)`. -/
def to_int (n : Int) : Int := (n + 2147483648) % 4294967296 - 2147483648

/-- Conversion of an integer to the 64-bit C `size_t`: the value modulo `2 ^ 64`. -/
def to_size_t (n : Int) : Int := n % 18446744073709551616

/-- The C `struct buffer { int cap; int size; char * buffer; int read; }`. -/
structure Buffer where
  cap : Int
  size : Int
  buffer : List Byte
  read : Int
deriving DecidableEq

/-- The state written by `_new`: `cap = 0`, `size = 0`, `buffer = NULL`, `read = 0`. -/
def new : Buffer := { cap := 0, size := 0, buffer := [], read := 0 }

/-! ## Memory primitives -/

/-- Read `n` bytes of region `m` starting at offset `off` (`m + off`);
`none` when `[off, off+n)` is not inside the region. -/
def load (m : List Byte) (off n : Int) : Option (List Byte) :=
  if 0 ≤ off ∧ 0 ≤ n ∧ off + n ≤ m.length then
    some ((m.drop off.toNat).take n.toNat)
  else none

/-- The call `memcpy(m + off, src, len src)`: the region with `src` written at offset `off`;
`none` when the destination range is not inside the region. -/
def memcpy (m : List Byte) (off : Int) (src : List Byte) : Option (List Byte) :=
  if 0 ≤ off ∧ off + src.length ≤ m.length then
    some (m.take off.toNat ++ src ++ m.drop (off.toNat + src.length))
  else none

/-- The call `malloc(n)`: a fresh region of `n` bytes. -/
def malloc (n : Int) : Option (List Byte) :=
  if 0 ≤ n then some (List.replicate n.toNat 0) else none

/-- The call `realloc(m, n)`: a region of `n` bytes that keeps the first `min (len m) n`
bytes of `m`. -/
def realloc (m : List Byte) (n : Int) : Option (List Byte) :=
  if 0 ≤ n then some (m.take n.toNat ++ List.replicate (n.toNat - m.length) 0) else none

/-! ## ByteAccumulator -/

/-- The function `_push` (the `LUA_TSTRING` case: `buf` is the string, `size` its length).
The comparisons are made in `size_t`; the sums stored in the `int` fields `cap` and `size`
are narrowed.  The metatable set when `cap == 0` is not part of the state. -/
def push (b : Buffer) (buf : List Byte) : Option Buffer :=
  let size : Int := buf.length
  let old_size : Int := b.size - b.read
  if to_size_t (size + old_size) > to_size_t b.cap then
    if b.read = 0 then do
      let m ← realloc b.buffer (to_size_t (size + old_size))
      let m1 ← memcpy m old_size buf
      some { b with buffer := m1, cap := to_int (size + old_size),
                    size := to_int (b.size + size) }
    else do
      let new_buffer ← malloc (to_size_t (size + old_size))
      let unread ← load b.buffer b.read (to_size_t old_size)
      let n1 ← memcpy new_buffer 0 unread
      let n2 ← memcpy n1 old_size buf
      some { b with buffer := n2, read := 0, size := to_int (old_size + size) }
  else if to_size_t (b.size + size) > to_size_t b.cap then do
    let unread ← load b.buffer b.read (to_size_t old_size)
    let m1 ← memcpy b.buffer 0 unread
    let m2 ← memcpy m1 old_size buf
    some { b with buffer := m2, read := 0, size := to_int (old_size + size) }
  else do
    let m ← memcpy b.buffer b.size buf
    some { b with buffer := m, size := to_int (b.size + size) }

/-- Number of unread bytes, `size - read`. -/
def unread_length (b : Buffer) : Int := b.size - b.read

/-- The logical content `storage[read .. size)`. -/
def content (b : Buffer) : List Byte :=
  (b.buffer.drop b.read.toNat).take (b.size - b.read).toNat

/-! ## FrameReader -/

/-- The function `_read`; `n` is the integer the host passes, which the source stores in
`int need`.  The result is `some s` when one string is returned (`return 1`) and `none`
when nothing is returned (`return 0`). -/
def read (b : Buffer) (n : Int) : Option (Option (List Byte) × Buffer) :=
  let need : Int := to_int n
  let size : Int := b.size - b.read
  if need ≤ size then do
    let s ← load b.buffer b.read need
    some (some s, { b with read := b.read + need })
  else some (none, b)

/-- The `for` loop of `_readline`, started at index `i`; the first argument bounds the
number of iterations still allowed. -/
def readline_loop (b : Buffer) (sep : List Byte) :
    Nat → Int → Option (Option (List Byte) × Buffer)
  | 0, _ => none
  | fuel + 1, i =>
    if i ≤ b.size - (sep.length : Int) then
      match load b.buffer i sep.length with
      | none => none
      | some w =>
        if w = sep then do
          let s ← load b.buffer b.read (i - b.read)
          some (some s, { b with read := i + sep.length })
        else readline_loop b sep fuel (i + 1)
    else some (none, b)

/-- The function `_readline`: the loop runs from `i = read` while `i <= size - sz`, which
is at most `size - sz - read + 1` iterations and one failing test.  The cast `(int)sz` is
taken as `sz`, its value for a separator shorter than `2 ^ 31` bytes. -/
def readline (b : Buffer) (sep : List Byte) : Option (Option (List Byte) × Buffer) :=
  readline_loop b sep ((b.size - sep.length - b.read + 1).toNat + 1) b.read

/-! ## The host stack seen by `_readblock` -/

/-- A value on the host (Lua) stack.  `userdata` is the buffer object in slot 1,
`lightuserdata p` is the address `buffer->buffer + p`, `other x` is any other host value
(in particular a function). -/
inductive LuaValue (α : Type) where
  | userdata : LuaValue α
  | lightuserdata (p : Int) : LuaValue α
  | integer (n : Int) : LuaValue α
  | other (x : α) : LuaValue α
deriving DecidableEq

/-- The call `lua_insert(L, idx)`: moves the top element into position `idx` (1-based),
shifting the elements above up; `none` when `idx` is not a valid index. -/
def lua_insert {α : Type} (L : List (LuaValue α)) (idx : Nat) : Option (List (LuaValue α)) :=
  match L.getLast? with
  | none => none
  | some t =>
    if 1 ≤ idx ∧ idx ≤ L.length then
      some (L.dropLast.take (idx - 1) ++ t :: L.dropLast.drop (idx - 1))
    else none

/-- The call `lua_call(L, nargs, LUA_MULTRET)`: the callee is the value just below the top
`nargs` values; callee and arguments are popped and, when the callee returns, its results
are pushed.  The host semantics of calling a value is the parameter `call`; an error raised
by the callee is `Except.error`.  The result also records the callee and its arguments. -/
def lua_call {ε α : Type}
    (call : LuaValue α → List (LuaValue α) → Except ε (List (LuaValue α)))
    (L : List (LuaValue α)) (nargs : Nat) :
    Option (LuaValue α × List (LuaValue α) × Except ε (List (LuaValue α))) :=
  if nargs + 1 ≤ L.length then
    match L.drop (L.length - (nargs + 1)) with
    | [] => none
    | fn :: args =>
      some (fn, args, (call fn args).map fun rets => L.take (L.length - (nargs + 1)) ++ rets)
  else none

/-- What a call of `_readblock` did. -/
inductive BlockResult (ε α : Type) where
  /-- One of the two early `return 0`: nothing was called. -/
  | insufficient : BlockResult ε α
  /-- The callee `fn` was called with `args` and returned; `results` are the values
  `_readblock` returns to its caller. -/
  | returned (fn : LuaValue α) (args results : List (LuaValue α)) : BlockResult ε α
  /-- The callee `fn` was called with `args` and raised `e`, which leaves `_readblock`
  by a non-local jump out of `lua_call`. -/
  | raised (fn : LuaValue α) (args : List (LuaValue α)) (e : ε) : BlockResult ε α

/-- The function `_readblock`.  `rest` is the stack above slot 1 (slot 1 holds the buffer
userdata `b`), so the stack is `userdata :: rest`.  The callee does not touch `b`. -/
def readblock {ε α : Type}
    (call : LuaValue α → List (LuaValue α) → Except ε (List (LuaValue α)))
    (b : Buffer) (rest : List (LuaValue α)) : Option (BlockResult ε α × Buffer) :=
  let L : List (LuaValue α) := LuaValue.userdata :: rest
  let top : Nat := L.length
  let size : Int := b.size - b.read
  if size < 2 then some (BlockResult.insufficient, b)
  else
    match load b.buffer b.read 2 with
    | some [b0, b1] =>
      let len : Int := (((b0.val <<< 8 ||| b1.val) % 65536 : Nat) : Int)
      if size < 2 + len then some (BlockResult.insufficient, b)
      else do
        let payload : LuaValue α := LuaValue.lightuserdata (b.read + 2)
        let called ←
          (if top = 2 then
            lua_call call (L ++ [payload, LuaValue.integer len]) 2
          else do
            let L1 ← lua_insert (L ++ [payload]) 3
            let L2 ← lua_insert (L1 ++ [LuaValue.integer len]) 4
            lua_call call L2 top)
        match called with
        | (fn, args, Except.error e) => some (BlockResult.raised fn args e, b)
        | (fn, args, Except.ok L3) =>
          some (BlockResult.returned fn args (L3.drop (L3.length - (L3.length - 1))),
                { b with read := b.read + (len + 2) })
    | _ => none

/-! ## FrameWriter -/

/-- The `errno` values `_write` and `_writeblock` distinguish. -/
inductive Errno where
  | EAGAIN : Errno
  | EINTR : Errno
  | other : Errno
deriving DecidableEq

/-- Outcome of one `send` / `writev` system call: the non-negative return value, or
`-1` with `errno`. -/
inductive SysResult where
  | ok (n : Nat) : SysResult
  | err (e : Errno) : SysResult
deriving DecidableEq

/-- The two `luaL_error` exits of `_writeblock`. -/
inductive WriteError where
  | too_big (sz : Nat) : WriteError
  | bad_header : WriteError
deriving DecidableEq

/-- How a call of `_write` / `_writeblock` ends.  `returned` is `return 0` (no value is
returned to the host), `aborted` is a failed `assert`. -/
inductive WriteEnd where
  | error (e : WriteError) : WriteEnd
  | returned : WriteEnd
  | aborted : WriteEnd
deriving DecidableEq

/-- Result of a writer: how it ended, and the scatter/gather lists handed to the
transport, one per system call, oldest first. -/
structure WriteResult where
  ending : WriteEnd
  calls : List (List (List Byte))
deriving DecidableEq

/-- Narrowing to `uint8_t`. -/
def toByte (n : Nat) : Byte := ⟨n % 256, Nat.mod_lt n (by decide)⟩

/-- The `for (;;)` loop of `_write` and `_writeblock`: `transport k` is the outcome of the
`k`-th system call, `iov` the byte ranges handed to each call, `total` the `size_t` value
the `assert` compares with.  The count a call returns is stored in `int err`.  When the
narrowed count is negative the source reads an `errno` that this call did not set; the
embedding has no result there.  The first argument bounds the number of calls. -/
def write_loop (transport : Nat → SysResult) (iov : List (List Byte)) (total : Int) :
    Nat → Nat → List (List (List Byte)) → Option WriteResult
  | 0, _, _ => none
  | fuel + 1, k, calls =>
    match transport k with
    | SysResult.err Errno.EAGAIN => write_loop transport iov total fuel (k + 1) (calls ++ [iov])
    | SysResult.err Errno.EINTR => write_loop transport iov total fuel (k + 1) (calls ++ [iov])
    | SysResult.err Errno.other => some { ending := WriteEnd.returned, calls := calls ++ [iov] }
    | SysResult.ok n =>
      let err : Int := to_int n
      if err < 0 then none
      else if to_size_t err = total then
        some { ending := WriteEnd.returned, calls := calls ++ [iov] }
      else some { ending := WriteEnd.aborted, calls := calls ++ [iov] }

/-- The header bytes `head` that `_writeblock` computes for header width `header` and
payload length `sz`. -/
def header_bytes (header : Int) (sz : Nat) : List Byte :=
  if header = 2 then
    [toByte (sz >>> 8 &&& 0xff), toByte (sz &&& 0xff)]
  else
    [toByte (sz >>> 24 &&& 0xff), toByte (sz >>> 16 &&& 0xff),
     toByte (sz >>> 8 &&& 0xff), toByte (sz &&& 0xff)]

/-- The function `_writeblock` (the `LUA_TSTRING` case: `buffer` is the string, `sz` its
length); `header_width` is the integer the host passes, which the source stores in
`int header`.  `send` is the code from `struct iovec buf[2]` on, reached when neither
`luaL_error` is raised.  The array `head` is declared inside the braces of the `if` and of
the `else`: when `writev` runs its lifetime has ended, and `buf[0]` still points at the
storage it occupied.  What `writev` finds there is not determined by the program: it is
the parameter `stale`, `stale i` being the byte at offset `i`; only the length of `head`
survives, in `buf[0].iov_len`.  `fuel` bounds the number of `writev` calls. -/
def writeblock (stale : Nat → Byte) (transport : Nat → SysResult) (fuel : Nat)
    (header_width : Int) (buffer : List Byte) : Option WriteResult :=
  let header : Int := to_int header_width
  let sz : Nat := buffer.length
  let send : Option WriteResult :=
    let head : List Byte := header_bytes header sz
    let iov_len : Nat := head.length
    write_loop transport [(List.range iov_len).map stale, buffer]
      (to_size_t (sz + header)) fuel 0 []
  if header = 2 then
    if sz > 65535 then
      some { ending := WriteEnd.error (WriteError.too_big sz), calls := [] }
    else send
  else
    if header ≠ 4 then
      some { ending := WriteEnd.error WriteError.bad_header, calls := [] }
    else send

/-! ## Reachable accumulator states -/

/-- The accumulator states reachable from `new` by calls of `push`, `read`, `readline`
and `readblock` that have a defined result and in which the number of buffered bytes
stays in the range of `int`: every pushed chunk satisfies
`unread_length + len ≤ 2 ^ 31 - 1`, so that no narrowing in `push` changes a value. -/
inductive Reachable : Buffer → Prop where
  | new : Reachable new
  | push {b b1 : Buffer} (c : List Byte) :
      Reachable b → unread_length b + (c.length : Int) ≤ 2147483647 →
      push b c = some b1 → Reachable b1
  | read {b b1 : Buffer} (n : Int) (r : Option (List Byte)) :
      Reachable b → read b n = some (r, b1) → Reachable b1
  | readline {b b1 : Buffer} (sep : List Byte) (r : Option (List Byte)) :
      Reachable b → readline b sep = some (r, b1) → Reachable b1
  | readblock {ε α : Type} {b b1 : Buffer}
      (call : LuaValue α → List (LuaValue α) → Except ε (List (LuaValue α)))
      (rest : List (LuaValue α)) (r : BlockResult ε α) :
      Reachable b → readblock call b rest = some (r, b1) → Reachable b1

/-- Bounds on the fields of an accumulator; `buffer.length` is the number of allocated
bytes. -/
def Inv (b : Buffer) : Prop :=
  0 ≤ b.read ∧ b.read ≤ b.size ∧ b.size ≤ (b.buffer.length : Int) ∧
    0 ≤ b.cap ∧ b.cap ≤ (b.buffer.length : Int) ∧ (b.buffer.length : Int) ≤ 2147483647

/-- The separator `sep` starts at absolute offset `i` of the storage and lies inside the
unread region `[read, size)`. -/
def OccursAt (b : Buffer) (sep : List Byte) (i : Int) : Prop :=
  b.read ≤ i ∧ i + sep.length ≤ b.size ∧ (b.buffer.drop i.toNat).take sep.length = sep

/-! ## Sequences of calls -/

/-- Call `push` with the chunks of `cs`, in order. -/
def push_seq : Buffer → List (List Byte) → Option Buffer
  | b, [] => some b
  | b, c :: cs => (push b c).bind fun b1 => push_seq b1 cs

/-- Call `read` with the lengths of `ks`, in order; the results of the calls, in order,
and the final state. -/
def read_seq : Buffer → List Int → Option (List (Option (List Byte)) × Buffer)
  | b, [] => some ([], b)
  | b, k :: ks =>
    (read b k).bind fun p => (read_seq p.2 ks).bind fun q => some (p.1 :: q.1, q.2)

/-- The call `_readblock` made, if any: the callee and its argument list. -/
def BlockResult.invoked {ε α : Type} :
    BlockResult ε α → Option (LuaValue α × List (LuaValue α))
  | BlockResult.insufficient => none
  | BlockResult.returned fn args _ => some (fn, args)
  | BlockResult.raised fn args _ => some (fn, args)

/-- The function `_write` (the `LUA_TSTRING` case: `buffer` is the string, `sz` its
length): the `send` loop on the single range `buffer`, with `assert(err == sz)`.  `fuel`
bounds the number of `send` calls. -/
def write (transport : Nat → SysResult) (fuel : Nat) (buffer : List Byte) :
    Option WriteResult :=
  let sz : Nat := buffer.length
  write_loop transport [buffer] sz fuel 0 []

/-- What the host receives from a writer that ends with `e`: the list of returned values
(`return 0` returns none), or nothing at all when the call does not return. -/
def WriteEnd.host_values : WriteEnd → Option (List (List Byte))
  | WriteEnd.returned => some []
  | WriteEnd.error _ => none
  | WriteEnd.aborted => none

/-- Value of a byte string read as an unsigned big-endian integer. -/
def be_decode (bs : List Byte) : Nat :=
  bs.foldl (fun acc x => acc * 256 + x.val) 0

theorem to_int_eq (n : Int) (h0 : 0 ≤ n) (h1 : n ≤ 2147483647) : to_int n = n := by
  unfold to_int
  omega

theorem to_size_t_eq (n : Int) (h0 : 0 ≤ n) (h1 : n ≤ 4294967296) : to_size_t n = n := by
  unfold to_size_t
  omega

theorem slice_append_left {α : Type} (x r : List α) (i n : Nat) (h : i + n = x.length) :
    ((x ++ r).drop i).take n = x.drop i := by
  have h1 : i ≤ x.length := by omega
  rw [List.drop_append_of_le_length h1, List.take_append_of_le_length (by simp; omega)]
  apply List.take_of_length_le
  simp; omega

theorem load_some (m : List Byte) (off n : Nat) (h : off + n ≤ m.length) :
    load m (off : Int) (n : Int) = some ((m.drop off).take n) := by
  unfold load
  rw [if_pos]
  · simp
  · omega

theorem memcpy_some (m : List Byte) (off : Nat) (src : List Byte)
    (h : off + src.length ≤ m.length) :
    memcpy m (off : Int) src = some (m.take off ++ src ++ m.drop (off + src.length)) := by
  unfold memcpy
  rw [if_pos]
  · simp
  · omega

theorem realloc_some (m : List Byte) (n : Nat) :
    realloc m (n : Int) = some (m.take n ++ List.replicate (n - m.length) 0) := by
  simp [realloc]

theorem malloc_some (n : Nat) : malloc (n : Int) = some (List.replicate n 0) := by
  simp [malloc]

theorem push_realloc (k s : Nat) (m c : List Byte) (hs : s ≤ m.length)
    (h : c.length + s > k) (hfit : c.length + s ≤ 2147483647) :
    push ⟨k, s, m, 0⟩ c = some ⟨((c.length + s : Nat) : Int), ((s + c.length : Nat) : Int), m.take s ++ c, 0⟩ := by
  have hlen : (m.take (c.length + s) ++ List.replicate (c.length + s - m.length) (0 : Byte)).length
      = c.length + s := by
    simp; omega
  have hm := memcpy_some (m.take (c.length + s) ++ List.replicate (c.length + s - m.length) 0) s c
    (by rw [hlen]; omega)
  have htake : (m.take (c.length + s) ++ List.replicate (c.length + s - m.length) (0 : Byte)).take s
      = m.take s := by
    rw [List.take_append_of_le_length (by simp; omega), List.take_take]
    congr 1; omega
  have hdrop : (m.take (c.length + s) ++ List.replicate (c.length + s - m.length) (0 : Byte)).drop
      (s + c.length) = [] := by
    apply List.drop_of_length_le
    rw [hlen]; omega
  rw [htake, hdrop, List.append_nil] at hm
  have e1 : to_size_t ((c.length : Int) + ((s : Int) - 0)) = ((c.length + s : Nat) : Int) := by
    rw [to_size_t_eq _ (by omega) (by omega)]; omega
  have e2 : to_size_t (k : Int) = (k : Int) := to_size_t_eq _ (by omega) (by omega)
  have e3 : to_int ((c.length : Int) + ((s : Int) - 0)) = ((c.length + s : Nat) : Int) := by
    rw [to_int_eq _ (by omega) (by omega)]; omega
  have e4 : to_int ((s : Int) + (c.length : Int)) = ((s + c.length : Nat) : Int) := by
    rw [to_int_eq _ (by omega) (by omega)]; omega
  have hc : ((c.length + s : Nat) : Int) > (k : Int) := by omega
  unfold push
  dsimp only
  rw [e1, e2, e3, e4, if_pos hc, if_pos rfl, realloc_some]
  simp only [Option.bind_eq_bind, Option.some_bind, sub_zero, hm]


theorem take_append_len {α : Type} (x y : List α) (n : Nat) (h : x.length = n) :
    (x ++ y).take n = x := by
  subst h; simp

theorem drop_append_len {α : Type} (x y : List α) (n k : Nat) (h : x.length = n) :
    (x ++ y).drop (n + k) = y.drop k := by
  subst h
  induction x with
  | nil => simp
  | cons a x ih =>
    rw [List.length_cons, show x.length + 1 + k = (x.length + k) + 1 by omega]
    simp

theorem length_slice (m : List Byte) (r s : Nat) (hs : s ≤ m.length) :
    ((m.drop r).take (s - r)).length = s - r := by
  simp; omega

theorem push_malloc (k s r : Nat) (m c : List Byte) (hr : r ≠ 0) (hrs : r ≤ s)
    (hs : s ≤ m.length) (h : c.length + (s - r) > k)
    (hfit : c.length + (s - r) ≤ 2147483647) :
    push ⟨k, s, m, r⟩ c =
      some ⟨k, ((s - r + c.length : Nat) : Int), (m.drop r).take (s - r) ++ c, 0⟩ := by
  have hl := length_slice m r s hs
  have e1 : ((c.length : Int) + ((s : Int) - (r : Int))) = ((c.length + (s - r) : Nat) : Int) := by
    omega
  have e2 : ((s : Int) - (r : Int)) = ((s - r : Nat) : Int) := by omega
  have hc : ((c.length : Int) + ((s : Int) - (r : Int))) > (k : Int) := by omega
  have hr0 : ¬ ((r : Int) = 0) := by omega
  have h1 := memcpy_some (List.replicate (c.length + (s - r)) 0) 0 ((m.drop r).take (s - r))
    (by simp only [List.length_replicate, hl]; omega)
  have h2 := memcpy_some ((m.drop r).take (s - r) ++ List.replicate c.length 0) (s - r) c
    (by simp only [List.length_append, List.length_replicate, hl]; omega)
  have h3 : (List.take 0 (List.replicate (c.length + (s - r)) (0 : Byte)) ++ (m.drop r).take (s - r) ++
      List.drop (0 + ((m.drop r).take (s - r)).length) (List.replicate (c.length + (s - r)) 0))
      = (m.drop r).take (s - r) ++ List.replicate c.length 0 := by
    rw [hl]; simp
  have h4 : List.take (s - r) ((m.drop r).take (s - r) ++ List.replicate c.length (0 : Byte)) ++ c ++
      List.drop (s - r + c.length) ((m.drop r).take (s - r) ++ List.replicate c.length 0)
      = (m.drop r).take (s - r) ++ c := by
    rw [take_append_len _ _ _ hl, drop_append_len _ _ _ _ hl]
    simp
  rw [h3] at h1
  rw [h4] at h2
  have t1 : to_size_t ((c.length : Int) + ((s : Int) - (r : Int))) =
      (c.length : Int) + ((s : Int) - (r : Int)) := to_size_t_eq _ (by omega) (by omega)
  have t2 : to_size_t (k : Int) = (k : Int) := to_size_t_eq _ (by omega) (by omega)
  have t3 : to_size_t ((s : Int) - (r : Int)) = (s : Int) - (r : Int) :=
    to_size_t_eq _ (by omega) (by omega)
  have t4 : to_int ((s : Int) - (r : Int) + (c.length : Int)) =
      (s : Int) - (r : Int) + (c.length : Int) := to_int_eq _ (by omega) (by omega)
  unfold push
  dsimp only
  rw [t1, t2, t3, t4, if_pos hc, if_neg hr0, e1, malloc_some, e2,
    load_some m r (s - r) (by omega)]
  simp only [Option.bind_eq_bind, Option.some_bind]
  rw [show ((0 : Int) = ((0 : Nat) : Int)) from rfl, h1]
  simp only [Option.some_bind, h2]
  congr 2

theorem push_compact (k s r : Nat) (m c : List Byte) (hrs : r ≤ s)
    (hs : s ≤ m.length) (hk : k ≤ m.length) (h : c.length + (s - r) ≤ k) (h' : s + c.length > k)
    (hmax : m.length ≤ 2147483647) :
    push ⟨k, s, m, r⟩ c =
      some ⟨k, ((s - r + c.length : Nat) : Int),
        (m.drop r).take (s - r) ++ c ++ m.drop (s - r + c.length), 0⟩ := by
  have hl := length_slice m r s hs
  have e2 : ((s : Int) - (r : Int)) = ((s - r : Nat) : Int) := by omega
  have hc : ¬ (((c.length : Int) + ((s : Int) - (r : Int))) > (k : Int)) := by omega
  have hc' : ((s : Int) + (c.length : Int)) > (k : Int) := by omega
  have h1 := memcpy_some m 0 ((m.drop r).take (s - r)) (by rw [hl]; omega)
  have h2 := memcpy_some ((m.drop r).take (s - r) ++ m.drop (s - r)) (s - r) c
    (by simp only [List.length_append, List.length_drop, hl]; omega)
  have h3 : (List.take 0 m ++ (m.drop r).take (s - r) ++
      List.drop (0 + ((m.drop r).take (s - r)).length) m)
      = (m.drop r).take (s - r) ++ m.drop (s - r) := by
    rw [hl]; simp
  have h4 : List.take (s - r) ((m.drop r).take (s - r) ++ m.drop (s - r)) ++ c ++
      List.drop (s - r + c.length) ((m.drop r).take (s - r) ++ m.drop (s - r))
      = (m.drop r).take (s - r) ++ c ++ m.drop (s - r + c.length) := by
    rw [take_append_len _ _ _ hl, drop_append_len _ _ _ _ hl, List.drop_drop]
  rw [h3] at h1
  rw [h4] at h2
  have t1 : to_size_t ((c.length : Int) + ((s : Int) - (r : Int))) =
      (c.length : Int) + ((s : Int) - (r : Int)) := to_size_t_eq _ (by omega) (by omega)
  have t2 : to_size_t (k : Int) = (k : Int) := to_size_t_eq _ (by omega) (by omega)
  have t3 : to_size_t ((s : Int) - (r : Int)) = (s : Int) - (r : Int) :=
    to_size_t_eq _ (by omega) (by omega)
  have t4 : to_int ((s : Int) - (r : Int) + (c.length : Int)) =
      (s : Int) - (r : Int) + (c.length : Int) := to_int_eq _ (by omega) (by omega)
  have t5 : to_size_t ((s : Int) + (c.length : Int)) = (s : Int) + (c.length : Int) :=
    to_size_t_eq _ (by omega) (by omega)
  unfold push
  dsimp only
  rw [t1, t2, t3, t4, t5, if_neg hc, if_pos hc', e2, load_some m r (s - r) (by omega)]
  simp only [Option.bind_eq_bind, Option.some_bind]
  rw [show ((0 : Int) = ((0 : Nat) : Int)) from rfl, h1]
  simp only [Option.some_bind, h2]
  congr 2

theorem push_direct (k s r : Nat) (m c : List Byte) (hrs : r ≤ s)
    (hk : k ≤ m.length) (h' : s + c.length ≤ k) (hmax : m.length ≤ 2147483647) :
    push ⟨k, s, m, r⟩ c =
      some ⟨k, ((s + c.length : Nat) : Int), m.take s ++ c ++ m.drop (s + c.length), r⟩ := by
  have hc : ¬ (((c.length : Int) + ((s : Int) - (r : Int))) > (k : Int)) := by omega
  have hc' : ¬ (((s : Int) + (c.length : Int)) > (k : Int)) := by omega
  have t1 : to_size_t ((c.length : Int) + ((s : Int) - (r : Int))) =
      (c.length : Int) + ((s : Int) - (r : Int)) := to_size_t_eq _ (by omega) (by omega)
  have t2 : to_size_t (k : Int) = (k : Int) := to_size_t_eq _ (by omega) (by omega)
  have t4 : to_int ((s : Int) + (c.length : Int)) = (s : Int) + (c.length : Int) :=
    to_int_eq _ (by omega) (by omega)
  have t5 : to_size_t ((s : Int) + (c.length : Int)) = (s : Int) + (c.length : Int) :=
    to_size_t_eq _ (by omega) (by omega)
  unfold push
  dsimp only
  rw [t1, t2, t4, t5, if_neg hc, if_neg hc', memcpy_some m s c (by omega)]
  simp

theorem Inv.lift {b : Buffer} (h : Inv b) :
    ∃ k s r : Nat, b = ⟨(k : Int), (s : Int), b.buffer, (r : Int)⟩ ∧ r ≤ s ∧
      s ≤ b.buffer.length ∧ k ≤ b.buffer.length := by
  obtain ⟨h1, h2, h3, h4, h5, _⟩ := h
  refine ⟨b.cap.toNat, b.size.toNat, b.read.toNat, ?_, by omega, by omega, by omega⟩
  cases b
  simp only [Buffer.mk.injEq, and_true, true_and] at *
  omega

theorem Inv.max {b : Buffer} (h : Inv b) : b.buffer.length ≤ 2147483647 := by
  obtain ⟨_, _, _, _, _, h6⟩ := h
  omega

theorem Inv.mk {k s r : Nat} {m : List Byte} (hrs : r ≤ s) (hs : s ≤ m.length)
    (hk : k ≤ m.length) (hmax : m.length ≤ 2147483647) :
    Inv ⟨(k : Int), (s : Int), m, (r : Int)⟩ := by
  unfold Inv
  simp only
  omega

theorem content_mk (k s r : Nat) (m : List Byte) (hrs : r ≤ s) :
    content ⟨(k : Int), (s : Int), m, (r : Int)⟩ = (m.drop r).take (s - r) := by
  unfold content
  simp only [Int.toNat_ofNat]
  congr 1
  omega

theorem drop_take_slice {α : Type} (m : List α) (r s : Nat) :
    (m.take s).drop r = (m.drop r).take (s - r) := by
  rw [List.drop_take]

/-- Effect of `push` on a state given by natural numbers. -/
theorem push_mk (k s r : Nat) (m c : List Byte) (hrs : r ≤ s) (hs : s ≤ m.length)
    (hk : k ≤ m.length) (hmax : m.length ≤ 2147483647)
    (hfit : c.length + (s - r) ≤ 2147483647) :
    ∃ b1, push ⟨(k : Int), (s : Int), m, (r : Int)⟩ c = some b1 ∧ Inv b1 ∧
      content b1 = (m.drop r).take (s - r) ++ c ∧
      b1.size - b1.read = ((s - r + c.length : Nat) : Int) := by
  have hl := length_slice m r s hs
  by_cases h : c.length + (s - r) > k
  · by_cases hr : r = 0
    · subst hr
      refine ⟨_, push_realloc k s m c hs (by omega) (by omega), ?_, ?_, ?_⟩
      · rw [show ((0 : Int) = ((0 : Nat) : Int)) from rfl]
        exact Inv.mk (by omega) (by simp; omega) (by simp; omega) (by simp; omega)
      · rw [show ((0 : Int) = ((0 : Nat) : Int)) from rfl, content_mk _ _ _ _ (by omega)]
        simp
      · simp
    · refine ⟨_, push_malloc k s r m c hr hrs hs h hfit, ?_, ?_, ?_⟩
      · rw [show ((0 : Int) = ((0 : Nat) : Int)) from rfl]
        exact Inv.mk (by omega) (by simp; omega) (by simp; omega) (by simp; omega)
      · rw [show ((0 : Int) = ((0 : Nat) : Int)) from rfl, content_mk _ _ _ _ (by omega)]
        apply List.take_of_length_le
        simp
      · simp
  · by_cases h' : s + c.length > k
    · refine ⟨_, push_compact k s r m c hrs hs hk (by omega) h' hmax, ?_, ?_, ?_⟩
      · rw [show ((0 : Int) = ((0 : Nat) : Int)) from rfl]
        exact Inv.mk (by omega) (by simp; omega) (by simp; omega) (by simp; omega)
      · rw [show ((0 : Int) = ((0 : Nat) : Int)) from rfl, content_mk _ _ _ _ (by omega)]
        rw [Nat.sub_zero, List.drop_zero]
        apply take_append_len
        simp; omega
      · simp
    · refine ⟨_, push_direct k s r m c hrs hk (by omega) hmax, ?_, ?_, ?_⟩
      · exact Inv.mk (by omega) (by simp; omega) (by simp; omega) (by simp; omega)
      · rw [content_mk _ _ _ _ (by omega)]
        rw [slice_append_left _ _ _ _ (by simp; omega)]
        rw [List.drop_append_of_le_length (by simp; omega), drop_take_slice]
      · simp only [Nat.cast_add]
        omega

/-- On a state within bounds `push` has a result, which is within bounds and whose
content is the old content followed by the chunk. -/
theorem push_spec {b : Buffer} (h : Inv b) (c : List Byte)
    (hfit : unread_length b + (c.length : Int) ≤ 2147483647) :
    ∃ b1, push b c = some b1 ∧ Inv b1 ∧ content b1 = content b ++ c ∧
      unread_length b1 = unread_length b + c.length := by
  obtain ⟨k, s, r, hb, hrs, hs, hk⟩ := h.lift
  have hfit2 : c.length + (s - r) ≤ 2147483647 := by
    rw [hb] at hfit
    unfold unread_length at hfit
    dsimp only at hfit
    omega
  obtain ⟨b1, h1, h2, h3, h4⟩ := push_mk k s r b.buffer c hrs hs hk h.max hfit2
  refine ⟨b1, ?_, h2, ?_, ?_⟩
  · rw [hb]; exact h1
  · rw [h3, hb, content_mk _ _ _ _ hrs]
  · unfold unread_length
    rw [h4, hb]
    simp only [Nat.cast_add]
    omega

theorem load_int (m : List Byte) (off n : Int) (h0 : 0 ≤ off) (hn : 0 ≤ n)
    (h : off + n ≤ m.length) : load m off n = some ((m.drop off.toNat).take n.toNat) := by
  unfold load
  rw [if_pos ⟨h0, hn, h⟩]

theorem load_eq_some {m : List Byte} {off n : Int} {s : List Byte} (h : load m off n = some s) :
    0 ≤ off ∧ 0 ≤ n ∧ off + n ≤ m.length ∧ s = (m.drop off.toNat).take n.toNat := by
  unfold load at h
  split at h
  · rename_i hc
    simp only [Option.some.injEq] at h
    exact ⟨hc.1, hc.2.1, hc.2.2, h.symm⟩
  · simp at h

/-- The successful branch of `read`. -/
theorem read_success {b : Buffer} (h : Inv b) (need : Int) (h0 : 0 ≤ need)
    (hn : need ≤ unread_length b) :
    read b need = some (some ((b.buffer.drop b.read.toNat).take need.toNat),
      { b with read := b.read + need }) := by
  obtain ⟨h1, h2, h3, h4, h5, h6⟩ := h
  unfold unread_length at hn
  have e : to_int need = need := to_int_eq _ h0 (by omega)
  unfold read
  dsimp only
  rw [e, if_pos hn, load_int _ _ _ h1 h0 (by omega)]
  rfl

/-- The failing branch of `read`. -/
theorem read_failure (b : Buffer) (need : Int) (hn : unread_length b < to_int need) :
    read b need = some (none, b) := by
  unfold unread_length at hn
  unfold read
  dsimp only
  rw [if_neg (by omega)]

theorem read_inv {b b1 : Buffer} (h : Inv b) {need : Int} {r : Option (List Byte)}
    (hr : read b need = some (r, b1)) : Inv b1 := by
  by_cases hn : to_int need ≤ b.size - b.read
  · unfold read at hr
    dsimp only at hr
    rw [if_pos hn] at hr
    cases hl : load b.buffer b.read (to_int need) with
    | none => rw [hl] at hr; simp at hr
    | some s =>
      rw [hl] at hr
      simp only [Option.bind_eq_bind, Option.some_bind, Option.some.injEq, Prod.mk.injEq] at hr
      obtain ⟨h0, hn0, hb, _⟩ := load_eq_some hl
      obtain ⟨h1, h2, h3, h4, h5, h6⟩ := h
      rw [← hr.2]
      unfold Inv
      dsimp only
      omega
  · rw [read_failure b need (by unfold unread_length; omega)] at hr
    simp only [Option.some.injEq, Prod.mk.injEq] at hr
    rw [← hr.2]; exact h

/-- The bytes the successful `read` returns are the first `need` bytes of the content. -/
theorem take_content (b : Buffer) (n : Nat) (hn : (n : Int) ≤ unread_length b) :
    (b.buffer.drop b.read.toNat).take n = (content b).take n := by
  unfold content
  unfold unread_length at hn
  rw [List.take_take]
  congr 1
  omega

/-- After a successful `read` of `n` bytes the content has lost its first `n` bytes. -/
theorem content_advance {b : Buffer} (h : Inv b) (n : Nat) (hn : (n : Int) ≤ unread_length b) :
    content { b with read := b.read + n } = (content b).drop n := by
  obtain ⟨h1, h2, h3, h4, h5, h6⟩ := h
  unfold unread_length at hn
  unfold content
  dsimp only
  rw [List.drop_take, List.drop_drop]
  congr 2
  · omega
  · omega

theorem readline_loop_step {b : Buffer} (h : Inv b) (sep : List Byte) (fuel : Nat) (i : Int)
    (hi : b.read ≤ i) (hle : i ≤ b.size - (sep.length : Int)) :
    readline_loop b sep (fuel + 1) i =
      if (b.buffer.drop i.toNat).take sep.length = sep then
        some (some ((b.buffer.drop b.read.toNat).take (i - b.read).toNat),
          { b with read := i + sep.length })
      else readline_loop b sep fuel (i + 1) := by
  obtain ⟨h1, h2, h3, h4, h5, h6⟩ := h
  rw [readline_loop, if_pos hle, load_int _ _ _ (by omega) (by omega) (by omega)]
  dsimp only
  rw [Int.toNat_ofNat]
  split
  · rw [load_int _ _ _ (by omega) (by omega) (by omega)]
    rfl
  · rfl

theorem readline_loop_stop (b : Buffer) (sep : List Byte) (fuel : Nat) (i : Int)
    (hgt : ¬ i ≤ b.size - (sep.length : Int)) :
    readline_loop b sep (fuel + 1) i = some (none, b) := by
  rw [readline_loop, if_neg hgt]

theorem readline_loop_notfound {b : Buffer} (h : Inv b) (sep : List Byte) (fuel : Nat) :
    ∀ i : Int, b.read ≤ i → (b.size - sep.length - i + 1).toNat < fuel →
      (∀ j, i ≤ j → ¬ OccursAt b sep j) → readline_loop b sep fuel i = some (none, b) := by
  induction fuel with
  | zero => intro i _ hf; omega
  | succ fuel ih =>
    intro i hi hf hno
    by_cases hle : i ≤ b.size - (sep.length : Int)
    · rw [readline_loop_step h sep fuel i hi hle]
      have hni := hno i (le_refl i)
      rw [if_neg (fun hw => hni ⟨hi, by omega, hw⟩)]
      exact ih (i + 1) (by omega) (by omega) (fun j hj => hno j (by omega))
    · exact readline_loop_stop b sep fuel i hle

theorem readline_loop_found {b : Buffer} (h : Inv b) (sep : List Byte) (j : Int)
    (hj : OccursAt b sep j) (fuel : Nat) :
    ∀ i : Int, b.read ≤ i → i ≤ j → (b.size - sep.length - i + 1).toNat < fuel →
      (∀ j1, i ≤ j1 → j1 < j → ¬ OccursAt b sep j1) →
      readline_loop b sep fuel i =
        some (some ((b.buffer.drop b.read.toNat).take (j - b.read).toNat),
          { b with read := j + sep.length }) := by
  induction fuel with
  | zero => intro i _ _ hf; omega
  | succ fuel ih =>
    intro i hi hij hf hfirst
    have hle : i ≤ b.size - (sep.length : Int) := by
      have := hj.2.1
      omega
    rw [readline_loop_step h sep fuel i hi hle]
    by_cases hw : (b.buffer.drop i.toNat).take sep.length = sep
    · rw [if_pos hw]
      have hocc : OccursAt b sep i := ⟨hi, by omega, hw⟩
      have hij2 : i = j := by
        by_contra hne
        exact hfirst i (le_refl i) (by omega) hocc
      rw [hij2]
    · rw [if_neg hw]
      have hne : i ≠ j := fun e => hw (e ▸ hj.2.2)
      exact ih (i + 1) (by omega) (by omega) (by omega) (fun j1 h1 h2 => hfirst j1 (by omega) h2)

/-- When `sep` does not occur in the unread region `readline` returns nothing and leaves
the state as it is. -/
theorem readline_notfound {b : Buffer} (h : Inv b) (sep : List Byte)
    (hno : ∀ j, ¬ OccursAt b sep j) : readline b sep = some (none, b) :=
  readline_loop_notfound h sep _ b.read (le_refl _) (by omega) (fun j _ => hno j)

/-- When the first occurrence of `sep` in the unread region starts at `j`, `readline`
returns the bytes `[read, j)` and moves `read` to `j + len sep`. -/
theorem readline_found {b : Buffer} (h : Inv b) (sep : List Byte) (j : Int)
    (hj : OccursAt b sep j) (hfirst : ∀ j1, j1 < j → ¬ OccursAt b sep j1) :
    readline b sep =
      some (some ((b.buffer.drop b.read.toNat).take (j - b.read).toNat),
        { b with read := j + sep.length }) :=
  readline_loop_found h sep j hj _ b.read (le_refl _) hj.1 (by omega)
    (fun j1 _ h2 => hfirst j1 h2)

theorem exists_first_occurrence {b : Buffer} {sep : List Byte} {j : Int}
    (hj : OccursAt b sep j) :
    ∃ j0, j0 ≤ j ∧ OccursAt b sep j0 ∧ ∀ j1, j1 < j0 → ¬ OccursAt b sep j1 := by
  have key : ∀ n : Nat, ∀ j : Int, (j - b.read).toNat = n → OccursAt b sep j →
      ∃ j0, j0 ≤ j ∧ OccursAt b sep j0 ∧ ∀ j1, j1 < j0 → ¬ OccursAt b sep j1 := by
    intro n
    induction n using Nat.strong_induction_on with
    | _ n ih =>
      intro j hn hj
      by_cases hex : ∃ j1, j1 < j ∧ OccursAt b sep j1
      · obtain ⟨j1, hlt, hocc⟩ := hex
        have h1 := hocc.1
        obtain ⟨j0, hle, h0, hmin⟩ := ih (j1 - b.read).toNat (by omega) j1 rfl hocc
        exact ⟨j0, by omega, h0, hmin⟩
      · exact ⟨j, le_refl j, hj, fun j1 hlt hocc => hex ⟨j1, hlt, hocc⟩⟩
  exact key _ j rfl hj

theorem readline_inv {b b1 : Buffer} (h : Inv b) {sep : List Byte} {r : Option (List Byte)}
    (hr : readline b sep = some (r, b1)) : Inv b1 := by
  by_cases hex : ∃ j, OccursAt b sep j
  · obtain ⟨j, hj⟩ := hex
    obtain ⟨j0, _, h0, hmin⟩ := exists_first_occurrence hj
    rw [readline_found h sep j0 h0 hmin] at hr
    simp only [Option.some.injEq, Prod.mk.injEq] at hr
    obtain ⟨h1, h2, h3, h4, h5, h6⟩ := h
    obtain ⟨o1, o2, _⟩ := h0
    rw [← hr.2]
    unfold Inv
    dsimp only
    omega
  · rw [readline_notfound h sep (fun j hj => hex ⟨j, hj⟩)] at hr
    simp only [Option.some.injEq, Prod.mk.injEq] at hr
    rw [← hr.2]; exact h

theorem length_content {b : Buffer} (h : Inv b) :
    ((content b).length : Int) = unread_length b := by
  obtain ⟨h1, h2, h3, h4, h5, h6⟩ := h
  unfold content unread_length
  simp only [List.length_take, List.length_drop]
  omega

theorem be16_eq (b0 b1 : Byte) :
    (b0.val <<< 8 ||| b1.val) % 65536 = b0.val * 256 + b1.val := by
  have h0 := b0.isLt
  have h1 := b1.isLt
  have e : b0.val <<< 8 ||| b1.val = 2 ^ 8 * b0.val + b1.val := by
    rw [Nat.shiftLeft_eq, Nat.mul_comm]
    exact (Nat.mul_add_lt_is_or (by omega) b0.val).symm
  rw [e]
  omega

theorem load_header {b : Buffer} (h : Inv b) {b0 b1 : Byte} {tail : List Byte}
    (hc : content b = b0 :: b1 :: tail) : load b.buffer b.read 2 = some [b0, b1] := by
  have hl := length_content h
  rw [hc] at hl
  simp only [List.length_cons] at hl
  have hu : (2 : Int) ≤ unread_length b := by omega
  obtain ⟨h1, h2, h3, h4, h5, h6⟩ := h
  unfold unread_length at hu
  rw [load_int _ _ _ h1 (by omega) (by omega)]
  have := take_content b 2 (by unfold unread_length; omega)
  rw [show (2 : Int).toNat = 2 from rfl, this, hc]
  rfl

theorem readblock_short {ε α : Type}
    (call : LuaValue α → List (LuaValue α) → Except ε (List (LuaValue α)))
    (b : Buffer) (rest : List (LuaValue α)) (h : unread_length b < 2) :
    readblock call b rest = some (BlockResult.insufficient, b) := by
  unfold unread_length at h
  unfold readblock
  dsimp only
  rw [if_pos h]

theorem readblock_incomplete {ε α : Type}
    (call : LuaValue α → List (LuaValue α) → Except ε (List (LuaValue α)))
    {b : Buffer} (hb : Inv b) (rest : List (LuaValue α)) {b0 b1 : Byte} {tail : List Byte}
    (hc : content b = b0 :: b1 :: tail)
    (h : unread_length b < 2 + ((b0.val * 256 + b1.val : Nat) : Int)) :
    readblock call b rest = some (BlockResult.insufficient, b) := by
  by_cases h2 : unread_length b < 2
  · exact readblock_short call b rest h2
  · unfold unread_length at h h2
    unfold readblock
    dsimp only
    rw [if_neg h2, load_header hb hc]
    dsimp only
    rw [be16_eq, if_pos h]

theorem lua_insert_concat {α : Type} (xs : List (LuaValue α)) (t : LuaValue α) (idx : Nat)
    (h1 : 1 ≤ idx) (h2 : idx ≤ xs.length + 1) :
    lua_insert (xs ++ [t]) idx = some (xs.take (idx - 1) ++ t :: xs.drop (idx - 1)) := by
  unfold lua_insert
  rw [List.getLast?_append, List.dropLast_concat]
  simp only [List.getLast?_singleton, Option.or]
  rw [if_pos ⟨h1, by simpa using h2⟩]

/-- The `lua_call` that `_readblock` performs on the stack `userdata :: f :: extras`, in
either branch of `top == 2`. -/
theorem readblock_stack {ε α : Type}
    (call : LuaValue α → List (LuaValue α) → Except ε (List (LuaValue α)))
    (f p n : LuaValue α) (extras : List (LuaValue α)) :
    (if (LuaValue.userdata :: f :: extras).length = 2 then
        lua_call call ((LuaValue.userdata :: f :: extras) ++ [p, n]) 2
      else do
        let L1 ← lua_insert ((LuaValue.userdata :: f :: extras) ++ [p]) 3
        let L2 ← lua_insert (L1 ++ [n]) 4
        lua_call call L2 (LuaValue.userdata :: f :: extras).length) =
      lua_call call (LuaValue.userdata :: f :: p :: n :: extras) (extras.length + 2) := by
  cases extras with
  | nil => rfl
  | cons e es =>
    have hne : ¬ ((LuaValue.userdata :: f :: e :: es).length = 2) := by
      simp
    rw [if_neg hne, lua_insert_concat _ _ 3 (by omega) (by simp)]
    simp only [Option.bind_eq_bind, Option.some_bind]
    rw [lua_insert_concat _ _ 4 (by omega) (by simp)]
    simp only [Option.some_bind]
    rfl

theorem lua_call_stack {ε α : Type}
    (call : LuaValue α → List (LuaValue α) → Except ε (List (LuaValue α)))
    (f : LuaValue α) (args : List (LuaValue α)) :
    lua_call call (LuaValue.userdata :: f :: args) args.length =
      some (f, args, (call f args).map fun rets => [LuaValue.userdata] ++ rets) := by
  unfold lua_call
  have hl : (LuaValue.userdata :: f :: args).length - (args.length + 1) = 1 := by
    simp
  rw [if_pos (by simp), hl]
  rfl

/-- A complete frame is dispatched: `f` is called with the payload address, the payload
length and the extra arguments; when it returns its results are returned and `read`
advances by `len + 2`; when it raises, the state is left as it is. -/
theorem readblock_dispatch {ε α : Type}
    (call : LuaValue α → List (LuaValue α) → Except ε (List (LuaValue α)))
    {b : Buffer} (hb : Inv b) (f : LuaValue α) (extras : List (LuaValue α))
    {b0 b1 : Byte} {tail : List Byte} (hc : content b = b0 :: b1 :: tail)
    (h : 2 + ((b0.val * 256 + b1.val : Nat) : Int) ≤ unread_length b) :
    readblock call b (f :: extras) =
      some (match call f (LuaValue.lightuserdata (b.read + 2) ::
              LuaValue.integer ((b0.val * 256 + b1.val : Nat) : Int) :: extras) with
        | Except.ok rets =>
          (BlockResult.returned f (LuaValue.lightuserdata (b.read + 2) ::
              LuaValue.integer ((b0.val * 256 + b1.val : Nat) : Int) :: extras) rets,
            { b with read := b.read + (((b0.val * 256 + b1.val : Nat) : Int) + 2) })
        | Except.error e =>
          (BlockResult.raised f (LuaValue.lightuserdata (b.read + 2) ::
              LuaValue.integer ((b0.val * 256 + b1.val : Nat) : Int) :: extras) e, b)) := by
  unfold unread_length at h
  unfold readblock
  dsimp only
  rw [if_neg (by omega), load_header hb hc]
  dsimp only
  rw [be16_eq, if_neg (by omega), readblock_stack]
  have hl := lua_call_stack call f (LuaValue.lightuserdata (b.read + 2) ::
              LuaValue.integer ((b0.val * 256 + b1.val : Nat) : Int) :: extras)
  rw [List.length_cons, List.length_cons] at hl
  rw [hl]
  simp only [Option.bind_eq_bind, Option.some_bind]
  cases call f (LuaValue.lightuserdata (b.read + 2) ::
              LuaValue.integer ((b0.val * 256 + b1.val : Nat) : Int) :: extras) with
  | error e => rfl
  | ok rets =>
    simp [Except.map]

theorem content_cons_cons {b : Buffer} (h : Inv b) (h2 : 2 ≤ unread_length b) :
    ∃ b0 b1 tail, content b = b0 :: b1 :: tail := by
  have hl := length_content h
  match hc : content b with
  | [] => rw [hc] at hl; simp at hl; omega
  | [_] => rw [hc] at hl; simp at hl; omega
  | b0 :: b1 :: tail => exact ⟨b0, b1, tail, rfl⟩

theorem readblock_state {ε α : Type}
    {call : LuaValue α → List (LuaValue α) → Except ε (List (LuaValue α))}
    {b b2 : Buffer} (hb : Inv b) {rest : List (LuaValue α)} {r : BlockResult ε α}
    (hr : readblock call b rest = some (r, b2)) :
    b2 = b ∨ ∃ L : Int, 0 ≤ L ∧ 2 + L ≤ unread_length b ∧
      b2 = { b with read := b.read + (L + 2) } := by
  by_cases h2 : unread_length b < 2
  · rw [readblock_short call b rest h2] at hr
    simp only [Option.some.injEq, Prod.mk.injEq] at hr
    exact Or.inl hr.2.symm
  · obtain ⟨b0, b1, tail, hc⟩ := content_cons_cons hb (by omega)
    by_cases h3 : unread_length b < 2 + ((b0.val * 256 + b1.val : Nat) : Int)
    · rw [readblock_incomplete call hb rest hc h3] at hr
      simp only [Option.some.injEq, Prod.mk.injEq] at hr
      exact Or.inl hr.2.symm
    · unfold unread_length at h2 h3
      unfold readblock at hr
      dsimp only at hr
      rw [if_neg h2, load_header hb hc] at hr
      dsimp only at hr
      rw [be16_eq, if_neg h3] at hr
      simp only [Option.bind_eq_bind] at hr
      rw [Option.bind_eq_some] at hr
      obtain ⟨⟨fn, args, res⟩, _, hr⟩ := hr
      cases res with
      | error e =>
        simp only [Option.some.injEq, Prod.mk.injEq] at hr
        exact Or.inl hr.2.symm
      | ok L3 =>
        simp only [Option.some.injEq, Prod.mk.injEq] at hr
        refine Or.inr ⟨((b0.val * 256 + b1.val : Nat) : Int), by omega, ?_, hr.2.symm⟩
        unfold unread_length
        omega

theorem readblock_inv {ε α : Type}
    {call : LuaValue α → List (LuaValue α) → Except ε (List (LuaValue α))}
    {b b2 : Buffer} (hb : Inv b) {rest : List (LuaValue α)} {r : BlockResult ε α}
    (hr : readblock call b rest = some (r, b2)) : Inv b2 := by
  rcases readblock_state hb hr with h | ⟨L, h0, h1, h2⟩
  · rw [h]; exact hb
  · obtain ⟨i1, i2, i3, i4, i5, i6⟩ := hb
    unfold unread_length at h1
    rw [h2]
    unfold Inv
    dsimp only
    omega

/-- Every reachable accumulator state is within bounds. -/
theorem reachable_inv {b : Buffer} (h : Reachable b) : Inv b := by
  induction h with
  | new => unfold Inv new; simp
  | push c _ hfit hp ih =>
    obtain ⟨b1, h1, h2, _⟩ := push_spec ih c hfit
    rw [h1] at hp
    simp only [Option.some.injEq] at hp
    rw [← hp]; exact h2
  | read need r _ hr ih => exact read_inv ih hr
  | readline sep r _ hr ih => exact readline_inv ih hr
  | readblock call rest r _ hr ih => exact readblock_inv ih hr

/-! # Claims -/

theorem to_size_t_small (n : Int) (h0 : 0 ≤ n) (h1 : n < 18446744073709551616) :
    to_size_t n = n := by
  unfold to_size_t
  omega

/-- A non-empty chunk pushed on the empty accumulator: the realloc branch, whatever the
length of the chunk; `cap` and `size` are the narrowed length. -/
theorem push_new (c : List Byte) (hpos : 0 < c.length)
    (hlt : c.length < 18446744073709551616) :
    push new c = some ⟨to_int c.length, to_int c.length, c, 0⟩ := by
  have e1 : to_size_t ((c.length : Int) + ((0 : Int) - 0)) = ((c.length : Nat) : Int) := by
    rw [to_size_t_small _ (by omega) (by omega)]; omega
  have e2 : to_size_t (0 : Int) = 0 := rfl
  have e3 : (c.length : Int) + ((0 : Int) - 0) = (c.length : Int) := by omega
  have e4 : (0 : Int) + (c.length : Int) = (c.length : Int) := by omega
  have hm := memcpy_some (([] : List Byte).take c.length ++ List.replicate (c.length - 0) 0)
    0 c (by simp)
  have hres : List.take 0 (([] : List Byte).take c.length ++ List.replicate (c.length - 0) 0)
      ++ c ++ List.drop (0 + c.length)
        (([] : List Byte).take c.length ++ List.replicate (c.length - 0) 0) = c := by
    rw [List.take_zero, List.nil_append, List.drop_of_length_le (by simp), List.append_nil]
  rw [hres] at hm
  unfold push new
  dsimp only
  rw [e1, e2, if_pos (by omega), if_pos rfl, realloc_some]
  simp only [Option.bind_eq_bind, Option.some_bind, List.length_nil, e3, e4]
  rw [show ((0 : Int) - 0) = ((0 : Nat) : Int) by rfl, hm]
  rfl

theorem to_int_wraps : to_int 2147483648 = -2147483648 := by
  unfold to_int
  norm_num

/-- The state after a chunk of `2 ^ 31` bytes is pushed on the empty accumulator. -/
theorem push_new_wraps (c : List Byte) (hc : c.length = 2147483648) :
    push new c = some ⟨-2147483648, -2147483648, c, 0⟩ := by
  have h := push_new c (by omega) (by omega)
  rw [hc] at h
  rw [h]
  have e : to_int ((2147483648 : Nat) : Int) = -2147483648 := to_int_wraps
  rw [e]

theorem push_seq_spec (cs : List (List Byte)) :
    ∀ b : Buffer, Inv b → unread_length b + (cs.flatten.length : Int) ≤ 2147483647 →
      ∃ b1, push_seq b cs = some b1 ∧ Inv b1 ∧ content b1 = content b ++ cs.flatten := by
  induction cs with
  | nil => intro b hb _; exact ⟨b, rfl, hb, by simp⟩
  | cons c cs ih =>
    intro b hb hfit
    rw [List.flatten_cons, List.length_append] at hfit
    push_cast at hfit
    obtain ⟨b1, h1, h2, h3, h4⟩ := push_spec hb c (by omega)
    obtain ⟨b2, h5, h6, h7⟩ := ih b1 h2 (by rw [h4]; omega)
    refine ⟨b2, ?_, h6, ?_⟩
    · rw [push_seq, h1]; exact h5
    · rw [h7, h3]; simp

theorem take_add_split {α : Type} (X : List α) (a n : Nat) :
    X.take a ++ (X.take (a + n)).drop a = X.take (a + n) := by
  conv_rhs => rw [← List.take_append_drop a (X.take (a + n))]
  rw [List.take_take, Nat.min_eq_left (Nat.le_add_right a n)]

theorem read_seq_spec (ks : List Int) :
    ∀ b : Buffer, Inv b → (∀ k ∈ ks, 0 ≤ k) → ks.sum ≤ unread_length b →
      ∃ (rs : List (List Byte)) (b1 : Buffer), read_seq b ks = some (rs.map some, b1) ∧ Inv b1 ∧
        rs.flatten = (content b).take ks.sum.toNat ∧
        unread_length b1 = unread_length b - ks.sum := by
  induction ks with
  | nil =>
    intro b hb _ _
    exact ⟨[], b, rfl, hb, by simp, by simp⟩
  | cons k ks ih =>
    intro b hb hk hsum
    have hk0 : 0 ≤ k := hk k (List.mem_cons_self k ks)
    have hks : ∀ k1 ∈ ks, 0 ≤ k1 := fun k1 h1 => hk k1 (List.mem_cons_of_mem k h1)
    have hs0 : 0 ≤ ks.sum := List.sum_nonneg hks
    rw [List.sum_cons] at hsum ⊢
    have hku : k ≤ unread_length b := by omega
    have hr := read_success hb k hk0 hku
    have hinv := read_inv hb hr
    have hkn : ((k.toNat : Nat) : Int) = k := Int.toNat_of_nonneg hk0
    have hc : content { b with read := b.read + k } = (content b).drop k.toNat := by
      have := content_advance hb k.toNat (by omega)
      rw [hkn] at this
      exact this
    have hu : unread_length { b with read := b.read + k } = unread_length b - k := by
      unfold unread_length; dsimp only; omega
    obtain ⟨rs, b1, h1, h2, h3, h4⟩ := ih _ hinv hks (by omega)
    refine ⟨(b.buffer.drop b.read.toNat).take k.toNat :: rs, b1, ?_, h2, ?_, ?_⟩
    · rw [read_seq, hr]
      simp only [Option.some_bind, h1, List.map_cons]
    · rw [List.flatten_cons, h3, hc, take_content b k.toNat (by omega), List.take_drop,
        show (k + ks.sum).toNat = k.toNat + ks.sum.toNat by omega]
      exact take_add_split _ _ _
    · rw [h4, hu]; omega

/-- C2, counterexample: one chunk of `2 ^ 31` zero bytes is pushed on the empty
accumulator and then two reads of `2 ^ 30` bytes are made, lengths that are non-negative
and sum to the pushed length.  After the push `size` is `-2 ^ 31`, so each read finds
`need > size - read`, returns nothing and leaves the state as it is. -/
theorem C2_counterexample :
    push_seq new [List.replicate 2147483648 0] =
      some ⟨-2147483648, -2147483648, List.replicate 2147483648 0, 0⟩ ∧
    read_seq ⟨-2147483648, -2147483648, List.replicate 2147483648 0, 0⟩
        [1073741824, 1073741824] =
      some ([none, none], ⟨-2147483648, -2147483648, List.replicate 2147483648 0, 0⟩) ∧
    ([1073741824, 1073741824] : List Int).sum =
      (([List.replicate 2147483648 (0 : Byte)].flatten.length : Nat) : Int) := by
  have hr : read ⟨-2147483648, -2147483648, List.replicate 2147483648 0, 0⟩ 1073741824 =
      some (none, ⟨-2147483648, -2147483648, List.replicate 2147483648 0, 0⟩) :=
    read_failure _ _ (by decide)
  refine ⟨?_, ?_, ?_⟩
  · rw [push_seq, push_new_wraps _ (List.length_replicate _ _)]
    rfl
  · rw [read_seq, hr]
    simp only [Option.some_bind]
    rw [read_seq, hr]
    rfl
  · rw [List.flatten_cons, List.flatten_nil, List.append_nil, List.length_replicate]
    rfl

/-- C2, amended. For chunks `c1..cn` of at most `2 ^ 31 - 1` bytes in total pushed in order
on the empty accumulator and then reads with non-negative lengths `ks` whose sum is the
total pushed length: every call has a result, every read returns a string, and the
strings, concatenated in order, are `c1 ++ ... ++ cn`. -/
theorem C2_push_then_read_roundtrip (cs : List (List Byte)) (ks : List Int)
    (hmax : cs.flatten.length ≤ 2147483647)
    (hk : ∀ k ∈ ks, 0 ≤ k) (hsum : ks.sum = (cs.flatten.length : Int)) :
    ∃ (b1 : Buffer) (rs : List (List Byte)) (b2 : Buffer), push_seq new cs = some b1 ∧
      read_seq b1 ks = some (rs.map some, b2) ∧
      rs.flatten = cs.flatten := by
  have h0 : unread_length new = 0 := rfl
  obtain ⟨b1, h1, h2, h3⟩ := push_seq_spec cs new (reachable_inv Reachable.new)
    (by rw [h0]; omega)
  have hc0 : content new = [] := rfl
  rw [hc0, List.nil_append] at h3
  have hl := length_content h2
  rw [h3] at hl
  obtain ⟨rs, b2, h4, _, h5, _⟩ := read_seq_spec ks b1 h2 hk (by omega)
  refine ⟨b1, rs, b2, h1, h4, ?_⟩
  rw [h5, h3]
  apply List.take_of_length_le
  omega

/-- C2, amended, witness: chunks `[1, 2]`, `[]`, `[3]` and reads of lengths `1, 0, 2`. -/
theorem C2_push_then_read_roundtrip_witness :
    ∃ (b1 : Buffer) (rs : List (List Byte)) (b2 : Buffer),
      push_seq new [[1, 2], [], [3]] = some b1 ∧
      read_seq b1 [1, 0, 2] = some (rs.map some, b2) ∧
      rs.flatten = [[1, 2], [], [3]].flatten :=
  C2_push_then_read_roundtrip [[1, 2], [], [3]] [1, 0, 2] (by decide) (by decide) (by decide)

theorem load_payload {b : Buffer} (hb : Inv b) {b0 b1 : Byte} {tail : List Byte}
    (hc : content b = b0 :: b1 :: tail) (n : Nat) (hn : 2 + (n : Int) ≤ unread_length b) :
    load b.buffer (b.read + 2) n = some (tail.take n) := by
  obtain ⟨h1, h2, h3, h4, h5, h6⟩ := hb
  unfold unread_length at hn
  rw [load_int _ _ _ (by omega) (by omega) (by omega)]
  have e : tail = (content b).drop 2 := by rw [hc]; rfl
  rw [e]
  unfold content
  rw [List.drop_take, List.drop_drop, List.take_take, Int.toNat_ofNat]
  rw [show (b.read + 2).toNat = b.read.toNat + 2 by omega,
    Nat.min_eq_left (by omega)]

/-- C3, counterexample: the frame `[0, 1, 9]` is buffered and the continuation raises an
error.  `readblock` has dispatched, it has called the continuation with the payload
address and the length 1, but `read` is still `0`, it has not advanced by `2 + 1`. -/
theorem C3_counterexample :
    Reachable ⟨3, 3, [0, 1, 9], 0⟩ ∧
    content ⟨3, 3, [0, 1, 9], 0⟩ = [0, 1, 9] ∧
    readblock (fun _ _ => (Except.error () : Except Unit (List (LuaValue Unit))))
        ⟨3, 3, [0, 1, 9], 0⟩ [LuaValue.other ()] =
      some (BlockResult.raised (LuaValue.other ())
          [LuaValue.lightuserdata 2, LuaValue.integer 1] (),
        ⟨3, 3, [0, 1, 9], 0⟩) ∧
    (BlockResult.raised (LuaValue.other ())
        [LuaValue.lightuserdata 2, LuaValue.integer 1] () :
          BlockResult Unit Unit).invoked ≠ none ∧
    (⟨3, 3, [0, 1, 9], 0⟩ : Buffer).read ≠ 0 + (2 + 1) :=
  ⟨Reachable.push (b := new) [0, 1, 9] Reachable.new (by decide) (by decide),
    by decide, rfl, by simp [BlockResult.invoked], by decide⟩

/-- C3, amended. In a reachable state whose unread bytes start with `b0, b1`, let
`L = b0 * 256 + b1` (big-endian, `0 ≤ L ≤ 65535`).  `readblock` has a result; it calls
the continuation if and only if `2 + L ≤ unread_length`; a call made is the call of `f`
with the address `read + 2`, the integer `L` and the extra arguments, the `L` bytes at that
address are the `L` bytes that follow the header; otherwise the state is unchanged; when
the continuation returns, `read` has advanced by exactly `2 + L` (the other fields are
unchanged); and when the continuation raises an error the state is unchanged. -/
theorem C3_readblock_gating {ε α : Type}
    (call : LuaValue α → List (LuaValue α) → Except ε (List (LuaValue α)))
    (b : Buffer) (f : LuaValue α) (extras : List (LuaValue α))
    (b0 b1 : Byte) (tail : List Byte)
    (hb : Reachable b) (hc : content b = b0 :: b1 :: tail) :
    ∃ (r : BlockResult ε α) (b2 : Buffer),
      readblock call b (f :: extras) = some (r, b2) ∧
      (r.invoked ≠ none ↔ 2 + ((b0.val * 256 + b1.val : Nat) : Int) ≤ unread_length b) ∧
      (r.invoked = none → b2 = b) ∧
      (r.invoked ≠ none →
        r.invoked = some (f, LuaValue.lightuserdata (b.read + 2) ::
          LuaValue.integer ((b0.val * 256 + b1.val : Nat) : Int) :: extras) ∧
        load b.buffer (b.read + 2) ((b0.val * 256 + b1.val : Nat) : Int) =
          some (tail.take (b0.val * 256 + b1.val)) ∧
        (tail.take (b0.val * 256 + b1.val)).length = b0.val * 256 + b1.val) ∧
      (∀ rets, call f (LuaValue.lightuserdata (b.read + 2) ::
          LuaValue.integer ((b0.val * 256 + b1.val : Nat) : Int) :: extras) = Except.ok rets →
        2 + ((b0.val * 256 + b1.val : Nat) : Int) ≤ unread_length b →
        b2 = { b with read := b.read + (2 + ((b0.val * 256 + b1.val : Nat) : Int)) }) ∧
      (∀ e, call f (LuaValue.lightuserdata (b.read + 2) ::
          LuaValue.integer ((b0.val * 256 + b1.val : Nat) : Int) :: extras) = Except.error e →
        b2 = b) := by
  have hi := reachable_inv hb
  by_cases h : 2 + ((b0.val * 256 + b1.val : Nat) : Int) ≤ unread_length b
  · have hd := readblock_dispatch call hi f extras hc h
    have hlen : (tail.take (b0.val * 256 + b1.val)).length = b0.val * 256 + b1.val := by
      have hl := length_content hi
      rw [hc] at hl
      simp only [List.length_cons] at hl
      rw [List.length_take]
      push_cast at hl h
      omega
    cases hcall : call f (LuaValue.lightuserdata (b.read + 2) ::
        LuaValue.integer ((b0.val * 256 + b1.val : Nat) : Int) :: extras) with
    | error e =>
      rw [hcall] at hd
      refine ⟨_, _, hd, ?_, ?_, ?_, ?_, ?_⟩
      · simpa [BlockResult.invoked] using h
      · simp [BlockResult.invoked]
      · intro _
        exact ⟨rfl, load_payload hi hc _ h, hlen⟩
      · intro rets hr; cases hr
      · intro _ _; rfl
    | ok rets =>
      rw [hcall] at hd
      refine ⟨_, _, hd, ?_, ?_, ?_, ?_, ?_⟩
      · simpa [BlockResult.invoked] using h
      · simp [BlockResult.invoked]
      · intro _
        exact ⟨rfl, load_payload hi hc _ h, hlen⟩
      · intro _ _ _
        rw [add_comm (2 : Int)]
      · intro e he; cases he
  · refine ⟨_, _, readblock_incomplete call hi (f :: extras) hc (by omega), ?_, ?_, ?_, ?_, ?_⟩
    · simpa [BlockResult.invoked] using h
    · intro _; rfl
    · intro h1; exact absurd rfl h1
    · intro _ _ h2; exact absurd h2 h
    · intro _ _; rfl

/-- C3, amended, witness: `[0x00, 0x05, 'h', 'e', 'l', 'l', 'o']` pushed on the empty accumulator,
then `readblock` with a continuation that returns its arguments: it is called with the
address of `"hello"` and `5`, and `unread_length` is `0` afterwards. -/
theorem C3_readblock_gating_witness :
    (∃ (r : BlockResult Unit Unit) (b2 : Buffer),
      readblock (fun _ args => Except.ok args) ⟨7, 7, [0, 5, 104, 101, 108, 108, 111], 0⟩
        [LuaValue.other ()] = some (r, b2) ∧
      (r.invoked ≠ none ↔ 2 + ((((0 : Byte).val * 256 + (5 : Byte).val : Nat)) : Int) ≤
        unread_length ⟨7, 7, [0, 5, 104, 101, 108, 108, 111], 0⟩) ∧
      (r.invoked = none → b2 = ⟨7, 7, [0, 5, 104, 101, 108, 108, 111], 0⟩) ∧
      (r.invoked ≠ none →
        r.invoked = some (LuaValue.other (), [LuaValue.lightuserdata (0 + 2),
          LuaValue.integer ((((0 : Byte).val * 256 + (5 : Byte).val : Nat)) : Int)]) ∧
        load [0, 5, 104, 101, 108, 108, 111] (0 + 2)
            ((((0 : Byte).val * 256 + (5 : Byte).val : Nat)) : Int) =
          some (([104, 101, 108, 108, 111] : List Byte).take
            ((0 : Byte).val * 256 + (5 : Byte).val)) ∧
        (([104, 101, 108, 108, 111] : List Byte).take
            ((0 : Byte).val * 256 + (5 : Byte).val)).length =
          (0 : Byte).val * 256 + (5 : Byte).val) ∧
      (∀ rets, (fun (_ : LuaValue Unit) (args : List (LuaValue Unit)) =>
            (Except.ok args : Except Unit (List (LuaValue Unit))))
          (LuaValue.other ()) [LuaValue.lightuserdata (0 + 2),
            LuaValue.integer ((((0 : Byte).val * 256 + (5 : Byte).val : Nat)) : Int)] =
            Except.ok rets →
        2 + ((((0 : Byte).val * 256 + (5 : Byte).val : Nat)) : Int) ≤
          unread_length ⟨7, 7, [0, 5, 104, 101, 108, 108, 111], 0⟩ →
        b2 = ⟨7, 7, [0, 5, 104, 101, 108, 108, 111],
          0 + (2 + ((((0 : Byte).val * 256 + (5 : Byte).val : Nat)) : Int))⟩) ∧
      (∀ e, (fun (_ : LuaValue Unit) (args : List (LuaValue Unit)) =>
            (Except.ok args : Except Unit (List (LuaValue Unit))))
          (LuaValue.other ()) [LuaValue.lightuserdata (0 + 2),
            LuaValue.integer ((((0 : Byte).val * 256 + (5 : Byte).val : Nat)) : Int)] =
            Except.error e →
        b2 = ⟨7, 7, [0, 5, 104, 101, 108, 108, 111], 0⟩)) ∧
    readblock (fun _ args => (Except.ok args : Except Unit (List (LuaValue Unit))))
        ⟨7, 7, [0, 5, 104, 101, 108, 108, 111], 0⟩ [LuaValue.other ()] =
      some (BlockResult.returned (LuaValue.other ())
          [LuaValue.lightuserdata 2, LuaValue.integer 5]
          [LuaValue.lightuserdata 2, LuaValue.integer 5],
        ⟨7, 7, [0, 5, 104, 101, 108, 108, 111], 7⟩) ∧
    load [0, 5, 104, 101, 108, 108, 111] 2 5 = some [104, 101, 108, 108, 111] ∧
    unread_length ⟨7, 7, [0, 5, 104, 101, 108, 108, 111], 7⟩ = 0 :=
  ⟨C3_readblock_gating (fun _ args => Except.ok args) ⟨7, 7, [0, 5, 104, 101, 108, 108, 111], 0⟩
      (LuaValue.other ()) [] 0 5 [104, 101, 108, 108, 111]
      (Reachable.push (b := new) [0, 5, 104, 101, 108, 108, 111] Reachable.new (by decide)
        (by decide))
      (by decide),
    rfl, by decide, by decide⟩

theorem write_loop_calls (transport : Nat → SysResult) (iov : List (List Byte)) (total : Int)
    (fuel : Nat) :
    ∀ (k : Nat) (calls : List (List (List Byte))) (w : WriteResult),
      write_loop transport iov total fuel k calls = some w →
      w.calls ≠ [] ∧ (∀ x ∈ w.calls, x ∈ calls ∨ x = iov) ∧
        (w.ending = WriteEnd.returned ∨ w.ending = WriteEnd.aborted) := by
  induction fuel with
  | zero => intro k calls w h; simp [write_loop] at h
  | succ fuel ih =>
    intro k calls w h
    have hrec : ∀ w1, write_loop transport iov total fuel (k + 1) (calls ++ [iov]) = some w1 →
        w1.calls ≠ [] ∧ (∀ x ∈ w1.calls, x ∈ calls ∨ x = iov) ∧
          (w1.ending = WriteEnd.returned ∨ w1.ending = WriteEnd.aborted) := by
      intro w1 h1
      obtain ⟨a1, a2, a3⟩ := ih (k + 1) (calls ++ [iov]) w1 h1
      refine ⟨a1, fun x hx => ?_, a3⟩
      rcases a2 x hx with hm | hm
      · rcases List.mem_append.mp hm with hm | hm
        · exact Or.inl hm
        · exact Or.inr (by simpa using hm)
      · exact Or.inr hm
    have hdone : ∀ e, (e = WriteEnd.returned ∨ e = WriteEnd.aborted) →
        w = { ending := e, calls := calls ++ [iov] } →
        w.calls ≠ [] ∧ (∀ x ∈ w.calls, x ∈ calls ∨ x = iov) ∧
          (w.ending = WriteEnd.returned ∨ w.ending = WriteEnd.aborted) := by
      intro e he hw
      subst hw
      refine ⟨by simp, fun x hx => ?_, he⟩
      rcases List.mem_append.mp hx with hm | hm
      · exact Or.inl hm
      · exact Or.inr (by simpa using hm)
    rw [write_loop] at h
    split at h
    · exact hrec w h
    · exact hrec w h
    · exact hdone _ (Or.inl rfl) (Option.some.inj h).symm
    · dsimp only at h
      split at h
      · simp at h
      · split at h
        · exact hdone _ (Or.inl rfl) (Option.some.inj h).symm
        · exact hdone _ (Or.inr rfl) (Option.some.inj h).symm

theorem header_bytes_two (n : Nat) :
    header_bytes 2 n = [toByte (n >>> 8 &&& 0xff), toByte (n &&& 0xff)] := by
  unfold header_bytes
  rw [if_pos rfl]

theorem header_bytes_four (n : Nat) :
    header_bytes 4 n = [toByte (n >>> 24 &&& 0xff), toByte (n >>> 16 &&& 0xff),
      toByte (n >>> 8 &&& 0xff), toByte (n &&& 0xff)] := by
  unfold header_bytes
  rw [if_neg (by decide)]

theorem header_two_decode (n : Nat) (hn : n ≤ 65535) :
    (toByte (n >>> 8 &&& 0xff)).val * 256 + (toByte (n &&& 0xff)).val = n := by
  have e1 : n >>> 8 &&& 0xff = n / 256 % 256 := by
    rw [Nat.shiftRight_eq_div_pow]
    exact Nat.and_pow_two_sub_one_eq_mod _ 8
  have e2 : n &&& 0xff = n % 256 := Nat.and_pow_two_sub_one_eq_mod _ 8
  rw [e1, e2]
  unfold toByte
  simp only
  omega

/-- The call of `_writeblock` that passes validation: the `writev` loop on the bytes found
in the dead array, as many as the header is wide, followed by the payload. -/
theorem writeblock_send (stale : Nat → Byte) (transport : Nat → SysResult) (fuel : Nat)
    (header_width : Int) (p : List Byte)
    (hvalid : (to_int header_width = 2 ∧ p.length ≤ 65535) ∨ to_int header_width = 4) :
    writeblock stale transport fuel header_width p =
      write_loop transport [(List.range (to_int header_width).toNat).map stale, p]
        (to_size_t ((p.length : Int) + to_int header_width)) fuel 0 [] := by
  rcases hvalid with ⟨h2, hp⟩ | h4
  · unfold writeblock
    dsimp only
    rw [h2, if_pos rfl, if_neg (by omega), header_bytes_two]
    rfl
  · unfold writeblock
    dsimp only
    rw [h4, if_neg (by decide), if_neg (by decide), header_bytes_four]
    rfl

/-- C4, counterexample.  First, `writeblock` with header width 2 and the payload
`[7, 8, 9]`, in a run where the dead array `head` reads as zero bytes when `writev` runs,
hands the transport `0, 0, 7, 8, 9`; pushed on the empty accumulator these bytes make
`readblock` call the continuation with the length 0, not with the payload, and leave
`unread_length = 3`.  Second, for the frame `0, 3, 7, 8, 9` and a continuation that raises
an error, `readblock` leaves `unread_length = 5`, not 0. -/
theorem C4_counterexample :
    writeblock (fun _ => 0) (fun _ => SysResult.ok 5) 1 2 [7, 8, 9] =
      some { ending := WriteEnd.returned, calls := [[[0, 0], [7, 8, 9]]] } ∧
    push_seq new [[0, 0, 7, 8, 9]] = some ⟨5, 5, [0, 0, 7, 8, 9], 0⟩ ∧
    readblock (fun _ args => (Except.ok args : Except Unit (List (LuaValue Unit))))
        ⟨5, 5, [0, 0, 7, 8, 9], 0⟩ [LuaValue.other ()] =
      some (BlockResult.returned (LuaValue.other ())
          [LuaValue.lightuserdata 2, LuaValue.integer 0]
          [LuaValue.lightuserdata 2, LuaValue.integer 0],
        ⟨5, 5, [0, 0, 7, 8, 9], 2⟩) ∧
    unread_length ⟨5, 5, [0, 0, 7, 8, 9], 2⟩ = 3 ∧
    push_seq new [[0, 3, 7, 8, 9]] = some ⟨5, 5, [0, 3, 7, 8, 9], 0⟩ ∧
    readblock (fun _ _ => (Except.error () : Except Unit (List (LuaValue Unit))))
        ⟨5, 5, [0, 3, 7, 8, 9], 0⟩ [LuaValue.other ()] =
      some (BlockResult.raised (LuaValue.other ())
          [LuaValue.lightuserdata 2, LuaValue.integer 3] (),
        ⟨5, 5, [0, 3, 7, 8, 9], 0⟩) ∧
    unread_length ⟨5, 5, [0, 3, 7, 8, 9], 0⟩ = 5 :=
  ⟨by decide, by decide, rfl, by decide, by decide, rfl, by decide⟩

/-- C4, amended. Reader side of the round trip under fragmentation.  Let `p` be a payload
of at most 65535 bytes and take the frame made of the two header bytes that `_writeblock`
computes for `p` (`header_bytes 2 (len p)`) followed by `p`.  If the chunks `chunks`
concatenate to the frame, then pushing them in order on the empty accumulator has a result
`b`, on which `readblock` calls the continuation with the address `read + 2`, where the
bytes of `p` are, and the length of `p`, and leaves `unread_length = 0` when the
continuation returns.  If the chunks `pre` concatenate to a strict prefix of the frame,
then `readblock` on the state they give reports insufficient data and leaves the state
unchanged. -/
theorem C4_frame_read_roundtrip (p : List Byte) (hp : p.length ≤ 65535) :
    (∀ chunks : List (List Byte), chunks.flatten = header_bytes 2 p.length ++ p →
      ∃ b : Buffer, push_seq new chunks = some b ∧
        load b.buffer (b.read + 2) (p.length : Int) = some p ∧
        ∀ {ε α : Type} (call : LuaValue α → List (LuaValue α) → Except ε (List (LuaValue α)))
          (f : LuaValue α) (extras : List (LuaValue α)),
          ∃ (r : BlockResult ε α) (b2 : Buffer),
            readblock call b (f :: extras) = some (r, b2) ∧
            r.invoked = some (f, LuaValue.lightuserdata (b.read + 2) ::
              LuaValue.integer (p.length : Int) :: extras) ∧
            (∀ rets, call f (LuaValue.lightuserdata (b.read + 2) ::
                LuaValue.integer (p.length : Int) :: extras) = Except.ok rets →
              unread_length b2 = 0)) ∧
    (∀ pre : List (List Byte), pre.flatten <+: header_bytes 2 p.length ++ p →
      pre.flatten ≠ header_bytes 2 p.length ++ p →
      ∃ b : Buffer, push_seq new pre = some b ∧
        ∀ {ε α : Type} (call : LuaValue α → List (LuaValue α) → Except ε (List (LuaValue α)))
          (rest : List (LuaValue α)),
          readblock call b rest = some (BlockResult.insufficient, b)) := by
  have hdec := header_two_decode p.length hp
  have hwire : header_bytes 2 p.length ++ p =
      toByte (p.length >>> 8 &&& 0xff) :: toByte (p.length &&& 0xff) :: p := by
    rw [header_bytes_two]; rfl
  generalize toByte (p.length >>> 8 &&& 0xff) = h0 at hwire hdec
  generalize toByte (p.length &&& 0xff) = h1 at hwire hdec
  rw [hwire]
  constructor
  · intro chunks hch
    obtain ⟨b, hb1, hb2, hb3⟩ := push_seq_spec chunks new (reachable_inv Reachable.new)
      (by rw [show unread_length new = 0 from rfl, hch, List.length_cons,
        List.length_cons]; push_cast; omega)
    rw [show content new = [] from rfl, List.nil_append, hch] at hb3
    have hlen := length_content hb2
    rw [hb3] at hlen
    simp only [List.length_cons] at hlen
    have hge : 2 + (((h0.val * 256 + h1.val : Nat)) : Int) ≤ unread_length b := by
      rw [hdec]; omega
    have hload := load_payload hb2 hb3 p.length (by omega)
    rw [List.take_of_length_le (le_refl _)] at hload
    refine ⟨b, hb1, hload, ?_⟩
    intro ε α call f extras
    have hd := readblock_dispatch call hb2 f extras hb3 hge
    rw [hdec] at hd
    cases hcall : call f (LuaValue.lightuserdata (b.read + 2) ::
        LuaValue.integer (p.length : Int) :: extras) with
    | error e =>
      rw [hcall] at hd
      exact ⟨_, _, hd, rfl, fun rets hr => by cases hr⟩
    | ok rets =>
      rw [hcall] at hd
      refine ⟨_, _, hd, rfl, fun _ _ => ?_⟩
      unfold unread_length at hlen ⊢
      dsimp only
      omega
  · intro pre hpre hne2
    have hprelen : pre.flatten.length ≤ (h0 :: h1 :: p).length := hpre.length_le
    obtain ⟨b, hb1, hb2, hb3⟩ := push_seq_spec pre new (reachable_inv Reachable.new)
      (by rw [show unread_length new = 0 from rfl]; simp only [List.length_cons] at hprelen;
          omega)
    rw [show content new = [] from rfl, List.nil_append] at hb3
    refine ⟨b, hb1, ?_⟩
    intro ε α call rest
    have hlen := length_content hb2
    rw [hb3] at hlen
    obtain ⟨t, ht⟩ := hpre
    have hlt : pre.flatten.length < (h0 :: h1 :: p).length := by
      have h1 : (pre.flatten ++ t).length = (h0 :: h1 :: p).length := by rw [ht]
      rw [List.length_append] at h1
      have : t ≠ [] := by
        intro h; rw [h, List.append_nil] at ht; exact hne2 ht
      have : 0 < t.length := List.length_pos.mpr this
      omega
    simp only [List.length_cons] at hlt
    match hm : pre.flatten, ht with
    | [], _ =>
      rw [hm] at hlen
      exact readblock_short call b rest (by rw [← hlen]; simp)
    | [_], _ =>
      rw [hm] at hlen
      exact readblock_short call b rest (by rw [← hlen]; simp)
    | x0 :: x1 :: xs, ht =>
      simp only [List.cons_append, List.cons.injEq] at ht
      obtain ⟨rfl, rfl, _⟩ := ht
      rw [hm] at hb3 hlen hlt
      simp only [List.length_cons] at hlen hlt
      apply readblock_incomplete call hb2 rest hb3
      rw [hdec]
      omega

/-- C4, amended, witness: the payload `[7, 8, 9]`, whose frame is `0, 3, 7, 8, 9`; the
frame arrives as the chunks `[0]`, `[3, 7]`, `[8, 9]`; and the chunks `[0, 3]`, `[7]` are a
strict prefix. -/
theorem C4_frame_read_roundtrip_witness :
    (∃ b : Buffer, push_seq new [[0], [3, 7], [8, 9]] = some b ∧
      load b.buffer (b.read + 2) (([7, 8, 9] : List Byte).length : Int) = some [7, 8, 9] ∧
      ∀ {ε α : Type} (call : LuaValue α → List (LuaValue α) → Except ε (List (LuaValue α)))
        (f : LuaValue α) (extras : List (LuaValue α)),
        ∃ (r : BlockResult ε α) (b2 : Buffer),
          readblock call b (f :: extras) = some (r, b2) ∧
          r.invoked = some (f, LuaValue.lightuserdata (b.read + 2) ::
            LuaValue.integer (([7, 8, 9] : List Byte).length : Int) :: extras) ∧
          (∀ rets, call f (LuaValue.lightuserdata (b.read + 2) ::
              LuaValue.integer (([7, 8, 9] : List Byte).length : Int) :: extras) =
                Except.ok rets →
            unread_length b2 = 0)) ∧
    (∃ b : Buffer, push_seq new [[0, 3], [7]] = some b ∧
      ∀ {ε α : Type} (call : LuaValue α → List (LuaValue α) → Except ε (List (LuaValue α)))
        (rest : List (LuaValue α)),
        readblock call b rest = some (BlockResult.insufficient, b)) :=
  ⟨(C4_frame_read_roundtrip [7, 8, 9] (by decide)).1 [[0], [3, 7], [8, 9]] (by decide),
    (C4_frame_read_roundtrip [7, 8, 9] (by decide)).2 [[0, 3], [7]] ⟨[8, 9], by decide⟩
      (by decide)⟩

/-- C6, counterexample: three bytes are unread and the host asks for `2 ^ 32 + 1` bytes.
The length is stored in `int need`, which keeps `1`: `read` succeeds, returns one byte
and advances `read` by 1, although `unread_length = 3` is smaller than the length asked
for. -/
theorem C6_counterexample :
    Reachable ⟨3, 3, [1, 2, 3], 0⟩ ∧
    unread_length ⟨3, 3, [1, 2, 3], 0⟩ < 4294967297 ∧
    read ⟨3, 3, [1, 2, 3], 0⟩ 4294967297 = some (some [1], ⟨3, 3, [1, 2, 3], 1⟩) :=
  ⟨Reachable.push (b := new) [1, 2, 3] Reachable.new (by decide) (by decide),
    by decide, by decide⟩

/-- C6, amended. In a reachable state and for `0 ≤ n ≤ 2 ^ 31 - 1` (a length that the
`int need` holds unchanged): `read` returns a string if and only if `n ≤ unread_length`;
the string is then exactly the `n` bytes `storage[read .. read + n)` and `read` has
increased by exactly `n`, while `size`, `cap` and the stored bytes are unchanged;
otherwise nothing is returned. -/
theorem C6_read_exact (b : Buffer) (n : Int) (hb : Reachable b) (hn : 0 ≤ n)
    (hmax : n ≤ 2147483647) :
    ((∃ s b1, read b n = some (some s, b1)) ↔ n ≤ unread_length b) ∧
    (n ≤ unread_length b →
      read b n = some (some ((b.buffer.drop b.read.toNat).take n.toNat),
        { cap := b.cap, size := b.size, buffer := b.buffer, read := b.read + n }) ∧
      (((b.buffer.drop b.read.toNat).take n.toNat).length : Int) = n) ∧
    (unread_length b < n → read b n = some (none, b)) := by
  have hi := reachable_inv hb
  have e : to_int n = n := to_int_eq n hn hmax
  refine ⟨⟨?_, ?_⟩, ?_, ?_⟩
  · rintro ⟨s, b1, h⟩
    by_contra hlt
    rw [read_failure b n (by rw [e]; omega)] at h
    simp at h
  · intro h
    exact ⟨_, _, read_success hi n hn h⟩
  · intro h
    refine ⟨read_success hi n hn h, ?_⟩
    obtain ⟨h1, h2, h3, h4, h5, h6⟩ := hi
    unfold unread_length at h
    rw [List.length_take, List.length_drop]
    omega
  · intro h
    exact read_failure b n (by rw [e]; exact h)

/-- C6, amended, witness: after `push [1, 2, 3]` and `read 1`, `read 2` returns
`[2, 3]`. -/
theorem C6_read_exact_witness :
    read ⟨3, 3, [1, 2, 3], 1⟩ 2 = some (some [2, 3], ⟨3, 3, [1, 2, 3], 3⟩) ∧
      ((([2, 3] : List Byte).length : Nat) : Int) = 2 :=
  (C6_read_exact ⟨3, 3, [1, 2, 3], 1⟩ 2
    (Reachable.read (b := ⟨3, 3, [1, 2, 3], 0⟩) 1 (some [1])
      (Reachable.push (b := new) [1, 2, 3] Reachable.new (by decide) (by decide)) (by decide))
    (by decide) (by decide)).2.1 (by decide)


theorem readline_loop_none (b : Buffer) (sep : List Byte) (fuel : Nat) :
    ∀ (i : Int) (b1 : Buffer), readline_loop b sep fuel i = some (none, b1) → b1 = b := by
  induction fuel with
  | zero => intro i b1 h; simp [readline_loop] at h
  | succ fuel ih =>
    intro i b1 h
    rw [readline_loop] at h
    split at h
    · split at h
      · simp at h
      · split at h
        · rw [Option.bind_eq_bind, Option.bind_eq_some] at h
          obtain ⟨s, _, h⟩ := h
          simp at h
        · exact ih _ _ h
    · simp only [Option.some.injEq, Prod.mk.injEq, true_and] at h
      exact h.symm

theorem readblock_none {ε α : Type}
    (call : LuaValue α → List (LuaValue α) → Except ε (List (LuaValue α)))
    (b : Buffer) (rest : List (LuaValue α)) (r : BlockResult ε α) (b1 : Buffer)
    (h : readblock call b rest = some (r, b1)) (hr : r.invoked = none) : b1 = b := by
  unfold readblock at h
  dsimp only at h
  split at h
  · simp only [Option.some.injEq, Prod.mk.injEq] at h
    exact h.2.symm
  · split at h
    · split at h
      · simp only [Option.some.injEq, Prod.mk.injEq] at h
        exact h.2.symm
      · rw [Option.bind_eq_bind, Option.bind_eq_some] at h
        obtain ⟨⟨fn, args, res⟩, _, h⟩ := h
        cases res with
        | error e =>
          simp only [Option.some.injEq, Prod.mk.injEq] at h
          rw [← h.1] at hr
          simp [BlockResult.invoked] at hr
        | ok L3 =>
          simp only [Option.some.injEq, Prod.mk.injEq] at h
          rw [← h.1] at hr
          simp [BlockResult.invoked] at hr
    · simp at h

/-- C7. Failed attempts are side-effect-free, in any state: when `read` or `readline`
returns nothing, or `readblock` returns without having called the continuation, the
whole state (`cap`, `size`, stored bytes, `read`) is the state before the call.  In
particular the header bytes of an incomplete frame stay where they are: the next
`readblock` call starts from the same state and gives the same result. -/
theorem C7_failed_attempts_unchanged (b : Buffer) :
    (∀ (n : Int) (b1 : Buffer), read b n = some (none, b1) → b1 = b) ∧
    (∀ (sep : List Byte) (b1 : Buffer), readline b sep = some (none, b1) → b1 = b) ∧
    (∀ {ε α : Type} (call : LuaValue α → List (LuaValue α) → Except ε (List (LuaValue α)))
      (rest : List (LuaValue α)) (r : BlockResult ε α) (b1 : Buffer),
      readblock call b rest = some (r, b1) → r.invoked = none →
        b1 = b ∧ readblock call b1 rest = some (r, b1)) := by
  refine ⟨?_, ?_, ?_⟩
  · intro n b1 h
    unfold read at h
    dsimp only at h
    split at h
    · rw [Option.bind_eq_bind, Option.bind_eq_some] at h
      obtain ⟨s, _, h⟩ := h
      simp at h
    · simp only [Option.some.injEq, Prod.mk.injEq, true_and] at h
      exact h.symm
  · intro sep b1 h
    exact readline_loop_none b sep _ _ b1 h
  · intro ε α call rest r b1 h hr
    have e := readblock_none call b rest r b1 h hr
    subst e
    exact ⟨rfl, h⟩

/-- C7, witness: the accumulator holds `[0, 5, 104]`, an incomplete frame of length 5;
`read 4`, `readline [10]` and `readblock` fail and leave the state as it was. -/
theorem C7_failed_attempts_unchanged_witness :
    (read ⟨3, 3, [0, 5, 104], 0⟩ 4 = some (none, ⟨3, 3, [0, 5, 104], 0⟩) ∧
      readline ⟨3, 3, [0, 5, 104], 0⟩ [10] = some (none, ⟨3, 3, [0, 5, 104], 0⟩)) ∧
    ((⟨3, 3, [0, 5, 104], 0⟩ : Buffer) = ⟨3, 3, [0, 5, 104], 0⟩ ∧
      readblock (fun _ args => (Except.ok args : Except Unit (List (LuaValue Unit))))
        ⟨3, 3, [0, 5, 104], 0⟩ [LuaValue.other ()] =
        some (BlockResult.insufficient, ⟨3, 3, [0, 5, 104], 0⟩)) :=
  ⟨⟨by decide, by decide⟩,
    (C7_failed_attempts_unchanged ⟨3, 3, [0, 5, 104], 0⟩).2.2
      (fun _ args => (Except.ok args : Except Unit (List (LuaValue Unit))))
      [LuaValue.other ()] BlockResult.insufficient ⟨3, 3, [0, 5, 104], 0⟩ rfl rfl⟩

/-- C8. With the host stack `[buffer, f, e1, ..., ek]` (any `k ≥ 0`) and a complete frame
buffered in a reachable state, `readblock` calls `f` with the argument list
`payload address, len, e1, ..., ek`, the extra arguments in their original order; when
`f` returns the values `rets`, `readblock` returns exactly `rets` to its caller. -/
theorem C8_readblock_arguments_and_results {ε α : Type}
    (call : LuaValue α → List (LuaValue α) → Except ε (List (LuaValue α)))
    (b : Buffer) (f : LuaValue α) (extras rets : List (LuaValue α))
    (b0 b1 : Byte) (tail : List Byte)
    (hb : Reachable b) (hc : content b = b0 :: b1 :: tail)
    (h : 2 + ((b0.val * 256 + b1.val : Nat) : Int) ≤ unread_length b)
    (hcall : call f (LuaValue.lightuserdata (b.read + 2) ::
      LuaValue.integer ((b0.val * 256 + b1.val : Nat) : Int) :: extras) = Except.ok rets) :
    ∃ b2 : Buffer, readblock call b (f :: extras) =
      some (BlockResult.returned f
        (LuaValue.lightuserdata (b.read + 2) ::
          LuaValue.integer ((b0.val * 256 + b1.val : Nat) : Int) :: extras) rets, b2) := by
  have hd := readblock_dispatch call (reachable_inv hb) f extras hc h
  rw [hcall] at hd
  exact ⟨_, hd⟩

/-- C8, witness: a frame with payload `[9]` is buffered, the stack holds `f` and the two
extra arguments `integer 1`, `integer 2`, and `f` returns its arguments in reverse
order. -/
theorem C8_readblock_arguments_and_results_witness :
    ∃ b2 : Buffer,
      readblock (fun _ args => (Except.ok args.reverse : Except Unit (List (LuaValue Unit))))
        ⟨3, 3, [0, 1, 9], 0⟩ [LuaValue.other (), LuaValue.integer 1, LuaValue.integer 2] =
      some (BlockResult.returned (LuaValue.other ())
        [LuaValue.lightuserdata 2, LuaValue.integer 1, LuaValue.integer 1, LuaValue.integer 2]
        [LuaValue.integer 2, LuaValue.integer 1, LuaValue.integer 1, LuaValue.lightuserdata 2],
        b2) :=
  C8_readblock_arguments_and_results
    (fun _ args => (Except.ok args.reverse : Except Unit (List (LuaValue Unit))))
    ⟨3, 3, [0, 1, 9], 0⟩ (LuaValue.other ()) [LuaValue.integer 1, LuaValue.integer 2]
    [LuaValue.integer 2, LuaValue.integer 1, LuaValue.integer 1, LuaValue.lightuserdata 2]
    0 1 [9]
    (Reachable.push (b := new) [0, 1, 9] Reachable.new (by decide) (by decide)) (by decide) (by decide) rfl

/-- C9, counterexample: the frame `[0, 5, 'h', 'e', 'l', 'l', 'o']` is buffered and the
continuation raises an error; `readblock` has called the continuation and `read` is
still `0`, not `0 + (2 + 5)`. -/
theorem C9_counterexample :
    readblock (fun _ _ => (Except.error () : Except Unit (List (LuaValue Unit))))
        ⟨7, 7, [0, 5, 104, 101, 108, 108, 111], 0⟩ [LuaValue.other ()] =
      some (BlockResult.raised (LuaValue.other ())
          [LuaValue.lightuserdata 2, LuaValue.integer 5] (),
        ⟨7, 7, [0, 5, 104, 101, 108, 108, 111], 0⟩) ∧
    (⟨7, 7, [0, 5, 104, 101, 108, 108, 111], 0⟩ : Buffer).read ≠ 0 + (2 + 5) ∧
    Reachable ⟨7, 7, [0, 5, 104, 101, 108, 108, 111], 0⟩ :=
  ⟨rfl, by decide,
    Reachable.push (b := new) [0, 5, 104, 101, 108, 108, 111] Reachable.new (by decide)
      (by decide)⟩

/-- C9, amended. For a complete frame buffered in a reachable state: when the
continuation returns, whatever values it returns, `read` has advanced by exactly
`2 + len` and nothing else has changed; when the continuation raises an error, the error
leaves `readblock` and the state is the state before the call, the frame is still
buffered. -/
theorem C9_cursor_after_dispatch {ε α : Type}
    (call : LuaValue α → List (LuaValue α) → Except ε (List (LuaValue α)))
    (b : Buffer) (f : LuaValue α) (extras : List (LuaValue α))
    (b0 b1 : Byte) (tail : List Byte)
    (hb : Reachable b) (hc : content b = b0 :: b1 :: tail)
    (h : 2 + ((b0.val * 256 + b1.val : Nat) : Int) ≤ unread_length b) :
    (∀ rets, call f (LuaValue.lightuserdata (b.read + 2) ::
        LuaValue.integer ((b0.val * 256 + b1.val : Nat) : Int) :: extras) = Except.ok rets →
      readblock call b (f :: extras) =
        some (BlockResult.returned f (LuaValue.lightuserdata (b.read + 2) ::
            LuaValue.integer ((b0.val * 256 + b1.val : Nat) : Int) :: extras) rets,
          { cap := b.cap, size := b.size, buffer := b.buffer,
            read := b.read + (2 + ((b0.val * 256 + b1.val : Nat) : Int)) })) ∧
    (∀ e, call f (LuaValue.lightuserdata (b.read + 2) ::
        LuaValue.integer ((b0.val * 256 + b1.val : Nat) : Int) :: extras) = Except.error e →
      readblock call b (f :: extras) =
        some (BlockResult.raised f (LuaValue.lightuserdata (b.read + 2) ::
            LuaValue.integer ((b0.val * 256 + b1.val : Nat) : Int) :: extras) e, b)) := by
  have hd := readblock_dispatch call (reachable_inv hb) f extras hc h
  constructor
  · intro rets hcall
    rw [hcall] at hd
    rw [hd, add_comm (2 : Int)]
  · intro e hcall
    rw [hcall] at hd
    exact hd

/-- C9, amended, witness: the frame `[0, 1, 9]` with a continuation that returns no
value. -/
theorem C9_cursor_after_dispatch_witness :
    readblock (fun _ _ => (Except.ok [] : Except Unit (List (LuaValue Unit))))
        ⟨3, 3, [0, 1, 9], 0⟩ [LuaValue.other ()] =
      some (BlockResult.returned (LuaValue.other ())
          [LuaValue.lightuserdata 2, LuaValue.integer 1] [],
        ⟨3, 3, [0, 1, 9], 3⟩) :=
  (C9_cursor_after_dispatch (fun _ _ => (Except.ok [] : Except Unit (List (LuaValue Unit))))
    ⟨3, 3, [0, 1, 9], 0⟩ (LuaValue.other ()) [] 0 1 [9]
    (Reachable.push (b := new) [0, 1, 9] Reachable.new (by decide) (by decide)) (by decide)
    (by decide)).1 [] rfl


theorem to_int_of_int_range (n : Int) (h0 : -2147483648 ≤ n) (h1 : n ≤ 2147483647) :
    to_int n = n := by
  unfold to_int
  omega

/-- C10, counterexample: the host passes the header width `2 ^ 32 + 2`, which is not in
`{2, 4}`, with a payload of three bytes.  The width is stored in `int header`, which keeps
`2`: the call passes validation and reaches `writev`. -/
theorem C10_counterexample :
    writeblock (fun _ => 0) (fun _ => SysResult.ok 5) 1 4294967298 [7, 8, 9] =
      some { ending := WriteEnd.returned, calls := [[[0, 0], [7, 8, 9]]] } ∧
    (4294967298 : Int) ≠ 2 ∧ (4294967298 : Int) ≠ 4 :=
  ⟨by decide, by decide, by decide⟩

/-- C10, amended. Let `header = to_int header_width` be the header width as stored in
`int header` (equal to `header_width` when it is in the range of `int`).  `writeblock`
ends with a validation error if and only if `header` is neither 2 nor 4, or it is 2 and
the payload is longer than 65535 bytes; nothing has then been handed to the transport.
Every other call reaches the `writev` loop with `header` bytes followed by the payload,
never ends with a validation error, and has handed its bytes to the transport at least
once when it ends. -/
theorem C10_writeblock_validation (stale : Nat → Byte) (transport : Nat → SysResult)
    (fuel : Nat) (header_width : Int) (p : List Byte) :
    ((∃ e calls, writeblock stale transport fuel header_width p =
        some { ending := WriteEnd.error e, calls := calls }) ↔
      ((to_int header_width ≠ 2 ∧ to_int header_width ≠ 4) ∨
        (to_int header_width = 2 ∧ 65535 < p.length))) ∧
    (((to_int header_width ≠ 2 ∧ to_int header_width ≠ 4) ∨
        (to_int header_width = 2 ∧ 65535 < p.length)) →
      ∃ e, writeblock stale transport fuel header_width p =
        some { ending := WriteEnd.error e, calls := [] }) ∧
    (¬ ((to_int header_width ≠ 2 ∧ to_int header_width ≠ 4) ∨
        (to_int header_width = 2 ∧ 65535 < p.length)) →
      writeblock stale transport fuel header_width p =
        write_loop transport [(List.range (to_int header_width).toNat).map stale, p]
          (to_size_t ((p.length : Int) + to_int header_width)) fuel 0 [] ∧
      (∀ w, writeblock stale transport fuel header_width p = some w →
        w.calls ≠ [] ∧ (w.ending = WriteEnd.returned ∨ w.ending = WriteEnd.aborted))) ∧
    (-2147483648 ≤ header_width → header_width ≤ 2147483647 →
      to_int header_width = header_width) := by
  have hinvalid : ((to_int header_width ≠ 2 ∧ to_int header_width ≠ 4) ∨
        (to_int header_width = 2 ∧ 65535 < p.length)) →
      ∃ e, writeblock stale transport fuel header_width p =
        some { ending := WriteEnd.error e, calls := [] } := by
    intro h
    by_cases h2 : to_int header_width = 2
    · have hp : 65535 < p.length := by
        rcases h with h | h
        · exact absurd h2 h.1
        · exact h.2
      refine ⟨WriteError.too_big p.length, ?_⟩
      unfold writeblock
      dsimp only
      rw [if_pos h2, if_pos hp]
    · have h4 : to_int header_width ≠ 4 := by
        rcases h with h | h
        · exact h.2
        · exact absurd h.1 h2
      refine ⟨WriteError.bad_header, ?_⟩
      unfold writeblock
      dsimp only
      rw [if_neg h2, if_pos h4]
  have hsend : ¬ ((to_int header_width ≠ 2 ∧ to_int header_width ≠ 4) ∨
        (to_int header_width = 2 ∧ 65535 < p.length)) →
      writeblock stale transport fuel header_width p =
        write_loop transport [(List.range (to_int header_width).toNat).map stale, p]
          (to_size_t ((p.length : Int) + to_int header_width)) fuel 0 [] := by
    intro h
    apply writeblock_send
    by_cases h2 : to_int header_width = 2
    · exact Or.inl ⟨h2, by
        by_contra hlt
        exact h (Or.inr ⟨h2, by omega⟩)⟩
    · exact Or.inr (by
        by_contra hne
        exact h (Or.inl ⟨h2, hne⟩))
  have hvalid : ¬ ((to_int header_width ≠ 2 ∧ to_int header_width ≠ 4) ∨
        (to_int header_width = 2 ∧ 65535 < p.length)) →
      ∀ w, writeblock stale transport fuel header_width p = some w →
        w.calls ≠ [] ∧ (w.ending = WriteEnd.returned ∨ w.ending = WriteEnd.aborted) := by
    intro h w hw
    rw [hsend h] at hw
    obtain ⟨a1, _, a3⟩ := write_loop_calls _ _ _ _ _ _ _ hw
    exact ⟨a1, a3⟩
  refine ⟨⟨?_, ?_⟩, hinvalid, fun h => ⟨hsend h, hvalid h⟩, to_int_of_int_range header_width⟩
  · rintro ⟨e, calls, hw⟩
    by_contra h
    obtain ⟨_, a3⟩ := hvalid h _ hw
    rcases a3 with a3 | a3 <;> simp at a3
  · intro h
    obtain ⟨e, he⟩ := hinvalid h
    exact ⟨e, [], he⟩

theorem header_two_values (n : Nat) (hn : n ≤ 65535) :
    (toByte (n >>> 8 &&& 0xff)).val = n / 256 ∧ (toByte (n &&& 0xff)).val = n % 256 := by
  have e1 : n >>> 8 &&& 0xff = n / 256 % 256 := by
    rw [Nat.shiftRight_eq_div_pow]
    exact Nat.and_pow_two_sub_one_eq_mod _ 8
  have e2 : n &&& 0xff = n % 256 := Nat.and_pow_two_sub_one_eq_mod _ 8
  rw [e1, e2]
  unfold toByte
  simp only
  omega

/-- The scatter/gather lists handed to the transport by the `writev` loop are all the list
the loop was started with. -/
theorem write_loop_iov {transport : Nat → SysResult} {iov : List (List Byte)} {total : Int}
    {fuel : Nat} {w : WriteResult} (h : write_loop transport iov total fuel 0 [] = some w) :
    w.calls ≠ [] ∧ (∀ x ∈ w.calls, x = iov) ∧
      (w.ending = WriteEnd.returned ∨ w.ending = WriteEnd.aborted) := by
  obtain ⟨a1, a2, a3⟩ := write_loop_calls _ _ _ _ _ _ _ h
  refine ⟨a1, fun x hx => ?_, a3⟩
  rcases a2 x hx with hm | hm
  · simp at hm
  · exact hm

theorem header_byte_value (n k : Nat) :
    (toByte (n >>> k &&& 0xff)).val = n / 2 ^ k % 256 := by
  have e1 : n >>> k &&& 0xff = n / 2 ^ k % 256 := by
    rw [Nat.shiftRight_eq_div_pow]
    exact Nat.and_pow_two_sub_one_eq_mod _ 8
  rw [e1]
  unfold toByte
  simp only
  omega

theorem header_byte_low (n : Nat) : (toByte (n &&& 0xff)).val = n % 256 := by
  have e2 : n &&& 0xff = n % 256 := Nat.and_pow_two_sub_one_eq_mod _ 8
  rw [e2]
  unfold toByte
  simp only
  omega

theorem be32_value (n : Nat) (hn : n < 4294967296) :
    ((n / 2 ^ 24 % 256 * 256 + n / 2 ^ 16 % 256) * 256 + n / 2 ^ 8 % 256) * 256 + n % 256
      = n := by
  have h1 : n / 2 ^ 16 = n / 256 / 256 := by
    rw [Nat.div_div_eq_div_mul]; norm_num
  have h2 : n / 2 ^ 24 = n / 256 / 256 / 256 := by
    rw [Nat.div_div_eq_div_mul, Nat.div_div_eq_div_mul]; norm_num
  have h3 : n / 2 ^ 8 = n / 256 := by norm_num
  rw [h1, h2, h3]
  omega

theorem be_decode_four (a b c d : Byte) :
    be_decode [a, b, c, d] = ((a.val * 256 + b.val) * 256 + c.val) * 256 + d.val := by
  simp [be_decode]

theorem be_decode_header_four (n : Nat) (hp : n < 4294967296) :
    be_decode [toByte (n >>> 24 &&& 0xff), toByte (n >>> 16 &&& 0xff),
          toByte (n >>> 8 &&& 0xff), toByte (n &&& 0xff)] = n := by
  rw [be_decode_four, header_byte_value, header_byte_value, header_byte_value, header_byte_low]
  exact be32_value n hp

theorem header_four_wraps (n : Nat) (hn : n = 4294967296) :
    [toByte (n >>> 24 &&& 0xff), toByte (n >>> 16 &&& 0xff),
      toByte (n >>> 8 &&& 0xff), toByte (n &&& 0xff)] = [0, 0, 0, 0] := by
  have e3 : toByte (n >>> 24 &&& 0xff) = 0 :=
    Fin.ext (by rw [header_byte_value, hn]; norm_num)
  have e2 : toByte (n >>> 16 &&& 0xff) = 0 :=
    Fin.ext (by rw [header_byte_value, hn]; norm_num)
  have e1 : toByte (n >>> 8 &&& 0xff) = 0 :=
    Fin.ext (by rw [header_byte_value, hn]; norm_num)
  have e0 : toByte (n &&& 0xff) = 0 :=
    Fin.ext (by rw [header_byte_low, hn]; norm_num)
  rw [e3, e2, e1, e0]

/-- The header that a call of `_writeblock` hands to `writev` is what the dead array holds
at that moment; it does not depend on the payload. -/
theorem writeblock_hands_stale (stale : Nat → Byte) (transport : Nat → SysResult)
    (fuel : Nat) (header_width : Int) (p : List Byte) (w : WriteResult)
    (hvalid : (to_int header_width = 2 ∧ p.length ≤ 65535) ∨ to_int header_width = 4)
    (hw : writeblock stale transport fuel header_width p = some w) :
    w.calls ≠ [] ∧
      ∀ iov ∈ w.calls, iov = [(List.range (to_int header_width).toNat).map stale, p] := by
  rw [writeblock_send stale transport fuel header_width p hvalid] at hw
  obtain ⟨a1, a2, _⟩ := write_loop_iov hw
  exact ⟨a1, a2⟩

/-- The four header bytes computed for a payload shorter than `2 ^ 32` bytes decode to its
length. -/
theorem header_bytes_four_decodes (n : Nat) (hn : n < 4294967296) :
    be_decode (header_bytes 4 n) = n := by
  rw [header_bytes_four]
  exact be_decode_header_four n hn

/-- C11, failing input: header width 2 and the payload `[7, 8, 9]`, in a run where the dead
array `head` reads as zero bytes when `writev` runs (what an optimising compiler that drops
the stores to the dead array produces), on a transport that accepts all bytes at once.  The
header computed is `0, 3`; the bytes handed to `writev` are `0, 0, 7, 8, 9`. -/
theorem C11_header_array_dead :
    header_bytes 2 ([7, 8, 9] : List Byte).length = [0, 3] ∧
    writeblock (fun _ => 0) (fun _ => SysResult.ok 5) 1 2 [7, 8, 9] =
      some { ending := WriteEnd.returned, calls := [[[0, 0], [7, 8, 9]]] } :=
  ⟨by decide, by decide⟩

/-- C12, failing input: header width 4 and the payload `[7, 8, 9]`, in a run where the dead
array `head` reads as zero bytes when `writev` runs, on a transport that accepts all bytes
at once.  The call passes validation; the header computed is `0, 0, 0, 3`, the header
handed to `writev` is `0, 0, 0, 0`, which decodes to `0`, not to the length 3.  Moreover
the header computed for a payload of `2 ^ 32` bytes, which also passes validation, is
`0, 0, 0, 0`. -/
theorem C12_header_not_transmitted :
    header_bytes 4 ([7, 8, 9] : List Byte).length = [0, 0, 0, 3] ∧
    writeblock (fun _ => 0) (fun _ => SysResult.ok 7) 1 4 [7, 8, 9] =
      some { ending := WriteEnd.returned, calls := [[[0, 0, 0, 0], [7, 8, 9]]] } ∧
    be_decode [0, 0, 0, 0] = 0 ∧
    header_bytes 4 4294967296 = [0, 0, 0, 0] :=
  ⟨by decide, by decide, by decide,
    by rw [header_bytes_four]; exact header_four_wraps 4294967296 rfl⟩

/-- In a state with `size ≤ cap` (and within bounds) pushing the empty chunk changes
nothing. -/
theorem push_nil_of_size_le_cap {b : Buffer} (hb : Inv b) (h : b.size ≤ b.cap) :
    push b [] = some b := by
  obtain ⟨k, s, r, hb2, hrs, hs, hk⟩ := hb.lift
  have hsk : s ≤ k := by
    rw [hb2] at h
    simpa using h
  rw [hb2, push_direct k s r b.buffer [] hrs hk (by simpa using hsk) hb.max]
  simp

/-- C14, failing input: `push "ab"`, `read 1`, `push "xyz"` lead to the state with
`cap = 2`, `size = 4`, `read = 0`, in which pushing the empty chunk changes `cap` from 2
to 4; after one more `read 1` pushing the empty chunk changes `size` from 4 to 3 and
`read` from 1 to 0. -/
theorem C14_empty_push_changes_state :
    Reachable ⟨2, 4, [98, 120, 121, 122], 0⟩ ∧
    push ⟨2, 4, [98, 120, 121, 122], 0⟩ [] = some ⟨4, 4, [98, 120, 121, 122], 0⟩ ∧
    Reachable ⟨2, 4, [98, 120, 121, 122], 1⟩ ∧
    push ⟨2, 4, [98, 120, 121, 122], 1⟩ [] = some ⟨2, 3, [120, 121, 122], 0⟩ :=
  have h1 : Reachable ⟨2, 4, [98, 120, 121, 122], 0⟩ :=
    Reachable.push (b := ⟨2, 2, [97, 98], 1⟩) [120, 121, 122]
      (Reachable.read (b := ⟨2, 2, [97, 98], 0⟩) 1 (some [97])
        (Reachable.push (b := new) [97, 98] Reachable.new (by decide) (by decide)) (by decide))
      (by decide) (by decide)
  ⟨h1, by decide,
    Reachable.read (b := ⟨2, 4, [98, 120, 121, 122], 0⟩) 1 (some [98]) h1 (by decide),
    by decide⟩

/-- C16, failing input: `push "ab"`, `read 1`, `push "xyz"` from the empty accumulator
reach a state with `size = 4` and `cap = 2`: `size ≤ cap` does not hold. -/
theorem C16_size_exceeds_cap :
    (do
      let b1 ← push new [97, 98]
      let p ← read b1 1
      push p.2 [120, 121, 122]) = some ⟨2, 4, [98, 120, 121, 122], 0⟩ ∧
    Reachable ⟨2, 4, [98, 120, 121, 122], 0⟩ ∧
    ¬ ((⟨2, 4, [98, 120, 121, 122], 0⟩ : Buffer).size ≤
        (⟨2, 4, [98, 120, 121, 122], 0⟩ : Buffer).cap) :=
  ⟨by decide,
    Reachable.push (b := ⟨2, 2, [97, 98], 1⟩) [120, 121, 122]
      (Reachable.read (b := ⟨2, 2, [97, 98], 0⟩) 1 (some [97])
        (Reachable.push (b := new) [97, 98] Reachable.new (by decide) (by decide)) (by decide))
      (by decide) (by decide),
    by decide⟩

/-- C17, failing input: in the reachable state with `cap = 2`, `size = 2`, `read = 1`
the chunk `"xyz"` does not fit (`1 + 3 > 2`); after the push `read = 0` and `size = 4`,
but `cap` is still 2. -/
theorem C17_cap_not_updated :
    Reachable ⟨2, 2, [97, 98], 1⟩ ∧
    unread_length ⟨2, 2, [97, 98], 1⟩ + (([120, 121, 122] : List Byte).length : Int) >
      (⟨2, 2, [97, 98], 1⟩ : Buffer).cap ∧
    push ⟨2, 2, [97, 98], 1⟩ [120, 121, 122] = some ⟨2, 4, [98, 120, 121, 122], 0⟩ :=
  ⟨Reachable.read (b := ⟨2, 2, [97, 98], 0⟩) 1 (some [97])
      (Reachable.push (b := new) [97, 98] Reachable.new (by decide) (by decide)) (by decide),
    by decide, by decide⟩


/-- While the transport answers `EAGAIN` or `EINTR` the loop calls it again with the same
ranges. -/
theorem write_loop_transient (transport : Nat → SysResult) (iov : List (List Byte))
    (total : Int) (k : Nat) :
    ∀ (fuel j : Nat) (calls : List (List (List Byte))),
      (∀ i, i < k → transport (j + i) = SysResult.err Errno.EAGAIN ∨
        transport (j + i) = SysResult.err Errno.EINTR) →
      write_loop transport iov total (k + fuel) j calls =
        write_loop transport iov total fuel (j + k) (calls ++ List.replicate k iov) := by
  induction k with
  | zero => intro fuel j calls _; simp
  | succ k ih =>
    intro fuel j calls h
    have h0 := h 0 (by omega)
    rw [Nat.add_zero] at h0
    have hrec := ih fuel (j + 1) (calls ++ [iov]) (fun i hi => by
      have := h (i + 1) (by omega)
      rw [show j + 1 + i = j + (i + 1) by omega]
      exact this)
    rw [show k + 1 + fuel = (k + fuel) + 1 by omega, write_loop]
    rw [show j + (k + 1) = j + 1 + k by omega,
      show calls ++ List.replicate (k + 1) iov = calls ++ [iov] ++ List.replicate k iov by
        rw [List.replicate_succ, List.append_assoc]; rfl]
    rcases h0 with h0 | h0 <;> rw [h0] <;> exact hrec

theorem write_loop_fatal (transport : Nat → SysResult) (iov : List (List Byte))
    (total : Int) (fuel j : Nat) (calls : List (List (List Byte)))
    (h : transport j = SysResult.err Errno.other) :
    write_loop transport iov total (fuel + 1) j calls =
      some { ending := WriteEnd.returned, calls := calls ++ [iov] } := by
  rw [write_loop, h]

theorem write_loop_sent (transport : Nat → SysResult) (iov : List (List Byte))
    (total : Int) (fuel j n : Nat) (calls : List (List (List Byte)))
    (h : transport j = SysResult.ok n) (hn0 : 0 ≤ to_int n)
    (hn : to_size_t (to_int n) = total) :
    write_loop transport iov total (fuel + 1) j calls =
      some { ending := WriteEnd.returned, calls := calls ++ [iov] } := by
  rw [write_loop, h]
  dsimp only
  rw [if_neg (by omega), if_pos hn]

/-- The loop on a transport that answers `k` transient signals and then `last`, where
`last` is a fatal error or a complete transmission: `k + 1` calls, then `return 0`. -/
theorem write_loop_ends (transport : Nat → SysResult) (iov : List (List Byte))
    (total : Int) (k fuel : Nat)
    (htrans : ∀ i, i < k → transport i = SysResult.err Errno.EAGAIN ∨
      transport i = SysResult.err Errno.EINTR)
    (hlast : transport k = SysResult.err Errno.other ∨
      ∃ n : Nat, transport k = SysResult.ok n ∧ 0 ≤ to_int n ∧ to_size_t (to_int n) = total)
    (hfuel : k < fuel) :
    write_loop transport iov total fuel 0 [] =
      some { ending := WriteEnd.returned, calls := List.replicate (k + 1) iov } := by
  obtain ⟨f, rfl⟩ : ∃ f, fuel = k + (f + 1) := ⟨fuel - k - 1, by omega⟩
  rw [write_loop_transient transport iov total k (f + 1) 0 []
    (fun i hi => by rw [Nat.zero_add]; exact htrans i hi)]
  rw [Nat.zero_add, List.nil_append]
  have e : List.replicate (k + 1) iov = List.replicate k iov ++ [iov] := by
    rw [List.replicate_succ']
  rw [e]
  rcases hlast with h | ⟨n, h, hn0, hn⟩
  · exact write_loop_fatal _ _ _ _ _ _ h
  · exact write_loop_sent _ _ _ _ _ n _ h hn0 hn

/-- C15, counterexample: for the payload `[1, 2]`, `write` and `writeblock` (header width
2) give the same result on a transport that answers a fatal error as on a transport that
sends everything: one system call, then `return 0`, no value for the host. -/
theorem C15_counterexample :
    write (fun _ => SysResult.err Errno.other) 1 [1, 2] =
      some { ending := WriteEnd.returned, calls := [[[1, 2]]] } ∧
    write (fun _ => SysResult.ok 2) 1 [1, 2] =
      some { ending := WriteEnd.returned, calls := [[[1, 2]]] } ∧
    writeblock (fun _ => 0) (fun _ => SysResult.err Errno.other) 1 2 [1, 2] =
      some { ending := WriteEnd.returned, calls := [[[0, 0], [1, 2]]] } ∧
    writeblock (fun _ => 0) (fun _ => SysResult.ok 4) 1 2 [1, 2] =
      some { ending := WriteEnd.returned, calls := [[[0, 0], [1, 2]]] } ∧
    WriteEnd.host_values WriteEnd.returned = some [] :=
  ⟨by decide, by decide, by decide, by decide, rfl⟩

/-- C15, amended. On a transport that answers `k` transient signals (`EAGAIN`, `EINTR`)
and then a fatal error, `write` and (for a call that passes validation) `writeblock` make
`k + 1` system calls with the same ranges, none after the fatal error, and then end with
`return 0`, which gives the host no value.  On a transport that answers the same
transient signals and then sends everything (a byte count that `int err` holds unchanged)
the result is the same. -/
theorem C15_fatal_error_no_retry (stale : Nat → Byte) (transport sending : Nat → SysResult)
    (k fuel : Nat) (header : Int) (p : List Byte)
    (htrans : ∀ i, i < k → transport i = SysResult.err Errno.EAGAIN ∨
      transport i = SysResult.err Errno.EINTR)
    (hfatal : transport k = SysResult.err Errno.other)
    (hfuel : k < fuel)
    (hvalid : (header = 2 ∧ p.length ≤ 65535) ∨ header = 4)
    (hsame : ∀ i, i < k → sending i = transport i) :
    write transport fuel p =
      some { ending := WriteEnd.returned, calls := List.replicate (k + 1) [p] } ∧
    (sending k = SysResult.ok p.length → p.length ≤ 2147483647 →
      write sending fuel p = write transport fuel p) ∧
    (∃ head : List Byte, (head.length : Int) = header ∧
      writeblock stale transport fuel header p =
        some { ending := WriteEnd.returned, calls := List.replicate (k + 1) [head, p] } ∧
      (sending k = SysResult.ok (p.length + head.length) →
        p.length + head.length ≤ 2147483647 →
        writeblock stale sending fuel header p = writeblock stale transport fuel header p)) ∧
    WriteEnd.host_values WriteEnd.returned = some [] := by
  have hs : ∀ i, i < k → sending i = SysResult.err Errno.EAGAIN ∨
      sending i = SysResult.err Errno.EINTR := fun i hi => by
    rw [hsame i hi]; exact htrans i hi
  have hw : write transport fuel p =
      some { ending := WriteEnd.returned, calls := List.replicate (k + 1) [p] } :=
    write_loop_ends transport [p] _ k fuel htrans (Or.inl hfatal) hfuel
  have hh : to_int header = header := by
    rcases hvalid with ⟨h2, _⟩ | h4
    · rw [h2]; rfl
    · rw [h4]; rfl
  have hhpos : 0 ≤ header ∧ header ≤ 4 := by
    rcases hvalid with ⟨h2, _⟩ | h4 <;> omega
  have hvalid2 : (to_int header = 2 ∧ p.length ≤ 65535) ∨ to_int header = 4 := by
    rw [hh]; exact hvalid
  refine ⟨hw, ?_, ?_, rfl⟩
  · intro hok hmax
    rw [hw]
    have e : to_int ((p.length : Nat) : Int) = (p.length : Int) :=
      to_int_eq _ (by omega) (by omega)
    exact write_loop_ends sending [p] _ k fuel hs
      (Or.inr ⟨p.length, hok, by rw [e]; omega,
        by rw [e]; exact to_size_t_small _ (by omega) (by omega)⟩) hfuel
  · have ht := writeblock_send stale transport fuel header p hvalid2
    have hs2 := writeblock_send stale sending fuel header p hvalid2
    have hwb := write_loop_ends transport [(List.range (to_int header).toNat).map stale, p]
      (to_size_t ((p.length : Int) + to_int header)) k fuel htrans (Or.inl hfatal) hfuel
    have hlen : (((List.range (to_int header).toNat).map stale).length : Int) = header := by
      rw [List.length_map, List.length_range, hh]
      omega
    refine ⟨(List.range (to_int header).toNat).map stale, hlen, by rw [ht, hwb], ?_⟩
    intro hok hmax
    rw [ht, hwb, hs2]
    have hsum : ((p.length + ((List.range (to_int header).toNat).map stale).length : Nat) : Int)
        = (p.length : Int) + header := by
      push_cast; omega
    have e : to_int ((p.length + ((List.range (to_int header).toNat).map stale).length : Nat)
        : Int) = (p.length : Int) + header := by
      rw [hsum]; exact to_int_eq _ (by omega) (by omega)
    exact write_loop_ends sending _ _ k fuel hs
      (Or.inr ⟨_, hok, by rw [e]; omega, by rw [e, hh]⟩) hfuel

/-- C15, amended, witness: the transport answers `EAGAIN` once and then a fatal error;
`write` of `[1, 2]` makes two `send` calls and returns no value. -/
theorem C15_fatal_error_no_retry_witness :
    write (fun i => match i with
        | 0 => SysResult.err Errno.EAGAIN
        | _ => SysResult.err Errno.other) 2 [1, 2] =
      some { ending := WriteEnd.returned, calls := List.replicate (1 + 1) [[1, 2]] } :=
  (C15_fatal_error_no_retry (fun _ => 0)
    (fun i => match i with
      | 0 => SysResult.err Errno.EAGAIN
      | _ => SysResult.err Errno.other)
    (fun i => match i with
      | 0 => SysResult.err Errno.EAGAIN
      | _ => SysResult.ok 4)
    1 2 2 [1, 2]
    (fun i hi => by
      have h0 : i = 0 := by omega
      subst h0
      exact Or.inl rfl)
    rfl (by decide) (Or.inl ⟨rfl, by decide⟩)
    (fun i hi => by
      have h0 : i = 0 := by omega
      subst h0
      rfl)).1


end LuaSocket
